import Mathlib

/-!
Verification development for the fluxa persistence and streaming layer.

The definitions below are a shallow embedding of the Python source:
- `src/fluxa/llm/client.py`   (`LLMClient._stream_response`)
- `src/fluxa/memory/manager.py` (`MemoryManager` CRUD operations)
- `src/fluxa/memory/database.py` (schema constraints: CHECK, UNIQUE,
  NOT NULL, FOREIGN KEY ... ON DELETE CASCADE)
- `src/fluxa/core/agent.py`   (`Agent.chat`)

Python values that flow through `json.dumps` / `json.loads` are modelled
by the inductive `JsonValue`; `JsonValue.null` plays the role of Python's
`None`.  Machine-level caveats: JSON numbers are modelled as exact
decimals (mantissa, base-10 exponent) rather than IEEE doubles, and
lone-surrogate escape sequences (unrepresentable in Lean `Char`) decode
to the null character; no claim depends on either corner.
-/

set_option maxHeartbeats 1000000

namespace Fluxa

/-- Model of a Python value produced by `json.loads` (and consumed by
`json.dumps`).  `null` doubles as Python `None`. `nan` / `infinity`
mirror the non-finite literals CPython's `json` accepts by default. -/
inductive JsonValue where
  | null
  | bool (b : Bool)
  | num (mantissa : Int) (exp10 : Int)
  | str (s : String)
  | nan
  | infinity (neg : Bool)
  | arr (elems : List JsonValue)
  | obj (fields : List (String × JsonValue))

/-- Python truthiness (`if content:` etc.) of a JSON-decoded value. -/
def truthy : JsonValue → Bool
  | .null => false
  | .bool b => b
  | .num m _ => m != 0
  | .str s => !s.isEmpty
  | .nan => true
  | .infinity _ => true
  | .arr l => !l.isEmpty
  | .obj f => !f.isEmpty

/-- `dict.get(k)` on a decoded JSON object (keys are unique by
construction of the decoder, mirroring Python `dict`). -/
def jlookup (fields : List (String × JsonValue)) (k : String) : Option JsonValue :=
  (fields.find? (fun p => p.1 = k)).map (·.2)

/-- Python `dict` insertion used while decoding an object: a repeated
key updates the stored value in place, otherwise the pair is appended. -/
def objInsert (fields : List (String × JsonValue)) (k : String) (v : JsonValue) :
    List (String × JsonValue) :=
  if fields.any (fun p => p.1 = k) then
    fields.map (fun p => if p.1 = k then (k, v) else p)
  else
    fields ++ [(k, v)]

/-! ### JSON text encoding (model of `json.dumps` with default separators) -/

/-- The `\x7b` character, written via its code point. -/
def obraceC : Char := Char.ofNat 123

/-- The `\x7d` character, written via its code point. -/
def cbraceC : Char := Char.ofNat 125

/-- Decimal digit character. -/
def digitChar (n : Nat) : Char := Char.ofNat (48 + n)

/-- Lower-case hexadecimal digit character (as CPython's `%04x`). -/
def hexDigChar (n : Nat) : Char :=
  if n < 10 then Char.ofNat (48 + n) else Char.ofNat (87 + n)

/-- Decimal digits of a natural number, most significant first. -/
def natDigits (n : Nat) : List Char :=
  if n < 10 then [digitChar n]
  else natDigits (n / 10) ++ [digitChar (n % 10)]
termination_by n
decreasing_by
  exact Nat.div_lt_self (by omega) (by omega)

/-- Decimal rendering of an integer. -/
def intChars (m : Int) : List Char :=
  if m < 0 then '-' :: natDigits m.natAbs else natDigits m.natAbs

/-- JSON string escaping of one character: `"` and `\` get a backslash,
control characters become `\u00xx`, everything else is literal. -/
def escChar (c : Char) : List Char :=
  if c = '"' then ['\\', '"']
  else if c = '\\' then ['\\', '\\']
  else if c.toNat < 32 then
    ['\\', 'u', '0', '0', hexDigChar (c.toNat / 16), hexDigChar (c.toNat % 16)]
  else [c]

mutual

/-- Characters of the JSON encoding of a value (model of `json.dumps`
with the default `", "` / `": "` separators; integers print without an
exponent, other exact decimals as `<mantissa>e<exp>`). -/
def serC : JsonValue → List Char
  | .null => 'n' :: ['u', 'l', 'l']
  | .bool true => 't' :: ['r', 'u', 'e']
  | .bool false => 'f' :: ['a', 'l', 's', 'e']
  | .num m e => intChars m ++ (if e = 0 then [] else 'e' :: intChars e)
  | .nan => ['N', 'a', 'N']
  | .infinity false => ['I', 'n', 'f', 'i', 'n', 'i', 't', 'y']
  | .infinity true => '-' :: ['I', 'n', 'f', 'i', 'n', 'i', 't', 'y']
  | .str s => '"' :: (s.toList.flatMap escChar ++ ['"'])
  | .arr [] => ['[', ']']
  | .arr (x :: xs) => '[' :: (serC x ++ serArrC xs ++ [']'])
  | .obj [] => [obraceC, cbraceC]
  | .obj (p :: ps) => obraceC :: (serEntry p ++ serObjC ps ++ [cbraceC])

/-- One `"key": value` entry. -/
def serEntry : String × JsonValue → List Char
  | (k, v) => '"' :: (k.toList.flatMap escChar ++ ['"', ':', ' ']) ++ serC v

/-- Remaining array elements, each preceded by `", "`. -/
def serArrC : List JsonValue → List Char
  | [] => []
  | x :: xs => ',' :: ' ' :: (serC x ++ serArrC xs)

/-- Remaining object entries, each preceded by `", "`. -/
def serObjC : List (String × JsonValue) → List Char
  | [] => []
  | p :: ps => ',' :: ' ' :: (serEntry p ++ serObjC ps)

end

/-- `json.dumps` model, as a string. -/
def jsonSerialize (v : JsonValue) : String := String.mk (serC v)

/-! ### JSON text decoding (model of `json.loads`, strict mode) -/

/-- JSON whitespace. -/
def wsChar (c : Char) : Bool := c = ' ' || c = '\t' || c = '\n' || c = '\r'

/-- Drop leading JSON whitespace. -/
def skipWs : List Char → List Char
  | [] => []
  | c :: cs => if wsChar c then skipWs cs else c :: cs

/-- Value of a hexadecimal digit character. -/
def hexVal? (c : Char) : Option Nat :=
  if '0' ≤ c ∧ c ≤ '9' then some (c.toNat - 48)
  else if 'a' ≤ c ∧ c ≤ 'f' then some (c.toNat - 87)
  else if 'A' ≤ c ∧ c ≤ 'F' then some (c.toNat - 55)
  else none

/-- Four hex digits to a code point. -/
def parseHex4 (h1 h2 h3 h4 : Char) : Option Nat := do
  let v1 ← hexVal? h1
  let v2 ← hexVal? h2
  let v3 ← hexVal? h3
  let v4 ← hexVal? h4
  pure (v1 * 4096 + v2 * 256 + v3 * 16 + v4)

/-- Body of a JSON string literal after the opening quote: unescape
characters up to the closing quote, returning the decoded characters
and the remaining input.  Raw control characters are rejected (strict
mode); surrogate escape pairs combine, a lone surrogate escape decodes
to `Char.ofNat`'s fallback. -/
def parseStrChars : Nat → List Char → Option (List Char × List Char)
  | 0, _ => none
  | _ + 1, [] => none
  | _ + 1, '"' :: rest => some ([], rest)
  | fuel + 1,
      '\\' :: 'u' :: h1 :: h2 :: h3 :: h4 :: '\\' :: 'u' :: g1 :: g2 :: g3 :: g4 :: rest =>
    match parseHex4 h1 h2 h3 h4 with
    | none => none
    | some n =>
      if 0xD800 ≤ n ∧ n ≤ 0xDBFF then
        match parseHex4 g1 g2 g3 g4 with
        | some m =>
          if 0xDC00 ≤ m ∧ m ≤ 0xDFFF then
            let cp := 0x10000 + (n - 0xD800) * 1024 + (m - 0xDC00)
            (parseStrChars fuel rest).map (fun p => (Char.ofNat cp :: p.1, p.2))
          else
            (parseStrChars fuel ('\\' :: 'u' :: g1 :: g2 :: g3 :: g4 :: rest)).map
              (fun p => (Char.ofNat n :: p.1, p.2))
        | none =>
          (parseStrChars fuel ('\\' :: 'u' :: g1 :: g2 :: g3 :: g4 :: rest)).map
            (fun p => (Char.ofNat n :: p.1, p.2))
      else
        (parseStrChars fuel ('\\' :: 'u' :: g1 :: g2 :: g3 :: g4 :: rest)).map
          (fun p => (Char.ofNat n :: p.1, p.2))
  | fuel + 1, '\\' :: 'u' :: h1 :: h2 :: h3 :: h4 :: rest =>
    match parseHex4 h1 h2 h3 h4 with
    | none => none
    | some n => (parseStrChars fuel rest).map (fun p => (Char.ofNat n :: p.1, p.2))
  | _ + 1, ['\\'] => none
  | fuel + 1, '\\' :: e :: rest =>
    if e = '"' then (parseStrChars fuel rest).map (fun p => ('"' :: p.1, p.2))
    else if e = '\\' then (parseStrChars fuel rest).map (fun p => ('\\' :: p.1, p.2))
    else if e = '/' then (parseStrChars fuel rest).map (fun p => ('/' :: p.1, p.2))
    else if e = 'b' then (parseStrChars fuel rest).map (fun p => ('\x08' :: p.1, p.2))
    else if e = 'f' then (parseStrChars fuel rest).map (fun p => ('\x0c' :: p.1, p.2))
    else if e = 'n' then (parseStrChars fuel rest).map (fun p => ('\n' :: p.1, p.2))
    else if e = 'r' then (parseStrChars fuel rest).map (fun p => ('\r' :: p.1, p.2))
    else if e = 't' then (parseStrChars fuel rest).map (fun p => ('\t' :: p.1, p.2))
    else none
  | fuel + 1, c :: rest =>
    if c.toNat < 32 then none
    else (parseStrChars fuel rest).map (fun p => (c :: p.1, p.2))

/-- Longest leading run of decimal digits. -/
def readDigits : List Char → List Char × List Char
  | [] => ([], [])
  | c :: rest =>
    if c.isDigit then
      let p := readDigits rest
      (c :: p.1, p.2)
    else ([], c :: rest)

/-- Numeric value of a digit run. -/
def digitsToNat (ds : List Char) : Nat :=
  ds.foldl (fun a c => a * 10 + (c.toNat - 48)) 0

/-- Strip a leading minus sign. -/
def splitNeg : List Char → Bool × List Char
  | [] => (false, [])
  | c :: r => if c = '-' then (true, r) else (false, c :: r)

/-- Strip a leading exponent sign (`-` or `+`). -/
def splitSignE : List Char → Bool × List Char
  | [] => (false, [])
  | c :: r =>
    if c = '-' then (true, r)
    else if c = '+' then (false, r)
    else (false, c :: r)

/-- Optional `.digits` fraction part. -/
def readFrac : List Char → Option (List Char × List Char)
  | [] => some ([], [])
  | c :: r =>
    if c = '.' then
      let p := readDigits r
      if p.1.isEmpty then none else some p
    else some ([], c :: r)

/-- Exponent suffix after `e`/`E`: optional sign, then digits. -/
def parseExpTail (cs : List Char) : Option (Int × List Char) :=
  let p := splitSignE cs
  let rd := readDigits p.2
  if rd.1.isEmpty then none
  else
    let n : Int := (digitsToNat rd.1 : Int)
    some (if p.1 then -n else n, rd.2)

/-- Optional `e`/`E` exponent part. -/
def readExp : List Char → Option (Int × List Char)
  | [] => some (0, [])
  | c :: r =>
    if c = 'e' ∨ c = 'E' then parseExpTail r
    else some (0, c :: r)

/-- JSON number: optional sign, integer part without leading zeros,
optional fraction, optional exponent.  The exact decimal value is kept
as `(mantissa, exp10)`. -/
def parseNum (cs : List Char) : Option (JsonValue × List Char) :=
  let sp := splitNeg cs
  let rd := readDigits sp.2
  if rd.1.isEmpty then none
  else if 1 < rd.1.length ∧ rd.1.head? = some '0' then none
  else
    match readFrac rd.2 with
    | none => none
    | some fr =>
      match readExp fr.2 with
      | none => none
      | some ex =>
        let mant0 : Nat := digitsToNat (rd.1 ++ fr.1)
        let mant : Int := if sp.1 then -(mant0 : Int) else (mant0 : Int)
        some (.num mant (ex.1 - (fr.1.length : Int)), ex.2)

/-- Match an expected literal tail. -/
def stripLit : List Char → List Char → Option (List Char)
  | [], cs => some cs
  | _ :: _, [] => none
  | p :: ps, c :: cs => if c = p then stripLit ps cs else none

mutual

/-- One JSON value (fuel-indexed recursive-descent reader). -/
def parseVal : Nat → List Char → Option (JsonValue × List Char)
  | 0, _ => none
  | fuel + 1, cs =>
    match skipWs cs with
    | [] => none
    | c :: rest =>
      if c = obraceC then
        match skipWs rest with
        | [] => none
        | c2 :: r2 =>
          if c2 = cbraceC then some (.obj [], r2)
          else parseObjFields fuel (c2 :: r2) []
      else if c = '[' then
        match skipWs rest with
        | [] => none
        | c2 :: r2 =>
          if c2 = ']' then some (.arr [], r2)
          else parseArrElems fuel (c2 :: r2) []
      else if c = '"' then
        (parseStrChars (rest.length + 1) rest).map
          (fun p => (.str (String.mk p.1), p.2))
      else if c = 't' then
        (stripLit ['r', 'u', 'e'] rest).map (fun r => (.bool true, r))
      else if c = 'f' then
        (stripLit ['a', 'l', 's', 'e'] rest).map (fun r => (.bool false, r))
      else if c = 'n' then
        (stripLit ['u', 'l', 'l'] rest).map (fun r => (.null, r))
      else if c = 'N' then
        (stripLit ['a', 'N'] rest).map (fun r => (.nan, r))
      else if c = 'I' then
        (stripLit ['n', 'f', 'i', 'n', 'i', 't', 'y'] rest).map
          (fun r => (.infinity false, r))
      else if c = '-' then
        match rest with
        | [] => parseNum (c :: rest)
        | c2 :: r2 =>
          if c2 = 'I' then
            (stripLit ['n', 'f', 'i', 'n', 'i', 't', 'y'] r2).map
              (fun r => (.infinity true, r))
          else parseNum (c :: c2 :: r2)
      else if c.isDigit then parseNum (c :: rest)
      else none

/-- Array elements after `[` (first element not yet read). -/
def parseArrElems : Nat → List Char → List JsonValue → Option (JsonValue × List Char)
  | 0, _, _ => none
  | fuel + 1, cs, acc =>
    match parseVal fuel cs with
    | none => none
    | some (v, rest) =>
      match skipWs rest with
      | [] => none
      | c2 :: r2 =>
        if c2 = ',' then parseArrElems fuel r2 (acc ++ [v])
        else if c2 = ']' then some (.arr (acc ++ [v]), r2)
        else none

/-- Object entries after `\x7b` (first key not yet read); a repeated key
overwrites, as in Python `dict`. -/
def parseObjFields : Nat → List Char → List (String × JsonValue) →
    Option (JsonValue × List Char)
  | 0, _, _ => none
  | fuel + 1, cs, acc =>
    match skipWs cs with
    | [] => none
    | c1 :: rest =>
      if c1 = '"' then
        match parseStrChars (rest.length + 1) rest with
        | none => none
        | some (kcs, r2) =>
          match skipWs r2 with
          | [] => none
          | c3 :: r3 =>
            if c3 = ':' then
              match parseVal fuel r3 with
              | none => none
              | some (v, r4) =>
                let acc2 := objInsert acc (String.mk kcs) v
                match skipWs r4 with
                | [] => none
                | c5 :: r5 =>
                  if c5 = ',' then parseObjFields fuel r5 acc2
                  else if c5 = cbraceC then some (.obj acc2, r5)
                  else none
            else none
      else none

end

/-- `json.loads` model: parse one value and require only whitespace
after it. -/
def jsonParse (s : String) : Option JsonValue :=
  let cs := s.toList
  match parseVal (2 * cs.length + 2) cs with
  | some (v, rest) => if (skipWs rest).isEmpty then some v else none
  | none => none

/-! ### Decoder/encoder round trip -/

/-- Duplicate-freedom of an association list's keys. -/
def keysNodup : List (String × JsonValue) → Bool
  | [] => true
  | p :: ps => !(ps.any (fun q => q.1 = p.1)) && keysNodup ps

mutual

/-- Well-formedness of a value as the image of a Python object: object
keys are duplicate-free (Python `dict`s cannot hold duplicates). -/
def jsonWFb : JsonValue → Bool
  | .arr l => jsonWFList l
  | .obj l => keysNodup l && jsonWFObj l
  | _ => true

def jsonWFList : List JsonValue → Bool
  | [] => true
  | x :: xs => jsonWFb x && jsonWFList xs

def jsonWFObj : List (String × JsonValue) → Bool
  | [] => true
  | p :: ps => jsonWFb p.2 && jsonWFObj ps

end

mutual

/-- Fuel sufficient for `parseVal` to read the encoding of a value. -/
def pfuel : JsonValue → Nat
  | .arr [] => 1
  | .arr (x :: xs) => 1 + pfuelArr (x :: xs)
  | .obj [] => 1
  | .obj (p :: ps) => 1 + pfuelObj (p :: ps)
  | .null => 1
  | .bool _ => 1
  | .num _ _ => 1
  | .str _ => 1
  | .nan => 1
  | .infinity _ => 1

def pfuelArr : List JsonValue → Nat
  | [] => 0
  | x :: xs => 1 + max (pfuel x) (pfuelArr xs)

def pfuelObj : List (String × JsonValue) → Nat
  | [] => 0
  | p :: ps => 1 + max (pfuel p.2) (pfuelObj ps)

end

theorem pfuel_pos (v : JsonValue) : 1 ≤ pfuel v := by
  cases v with
  | arr l => cases l <;> simp [pfuel]
  | obj l => cases l <;> simp [pfuel]
  | _ => simp [pfuel]

/-- Condition on the text following a number so that the greedy digit
reader stops exactly at the number's end. -/
def numFollowOk : List Char → Bool
  | [] => true
  | c :: _ => !(c.isDigit || c = '.' || c = 'e' || c = 'E')

theorem skipWs_cons_of_not_ws {c : Char} (t : List Char) (h : wsChar c = false) :
    skipWs (c :: t) = c :: t := by
  simp [skipWs, h]

theorem wsChar_eq_false_of_isDigit {c : Char} (h : c.isDigit = true) :
    wsChar c = false := by
  cases ht : wsChar c with
  | false => rfl
  | true =>
    exfalso
    simp only [wsChar, Bool.or_eq_true, decide_eq_true_eq] at ht
    rcases ht with ((h1 | h1) | h1) | h1 <;> subst h1 <;> simp at h

theorem ne_of_isDigit {c d : Char} (h : c.isDigit = true) (hd : d.isDigit = false) :
    c = d → False := by
  intro he; subst he; rw [h] at hd; exact absurd hd (by simp)

theorem digitChar_isDigit : ∀ n < 10, (digitChar n).isDigit = true := by decide

theorem digitChar_toNat : ∀ n < 10, (digitChar n).toNat - 48 = n := by decide

theorem digitChar_ne_zeroCh : ∀ n < 10, 1 ≤ n → digitChar n ≠ '0' := by decide

theorem natDigits_ne_nil (n : Nat) : natDigits n ≠ [] := by
  rw [natDigits]
  split <;> simp

theorem natDigits_digits (n : Nat) : ∀ c ∈ natDigits n, c.isDigit = true := by
  induction n using Nat.strong_induction_on with
  | _ n ih =>
    rw [natDigits]
    split
    · next h =>
      intro c hc
      simp only [List.mem_singleton] at hc
      subst hc
      exact digitChar_isDigit n h
    · next h =>
      intro c hc
      rcases List.mem_append.mp hc with h1 | h1
      · exact ih (n / 10) (Nat.div_lt_self (by omega) (by omega)) c h1
      · simp only [List.mem_singleton] at h1
        subst h1
        exact digitChar_isDigit (n % 10) (Nat.mod_lt _ (by omega))

theorem natDigits_head_ne_zero (n : Nat) (hn : 1 ≤ n) :
    (natDigits n).head? ≠ some '0' := by
  induction n using Nat.strong_induction_on with
  | _ n ih =>
    rw [natDigits]
    split
    · next h =>
      simp only [List.head?_cons, Option.some.injEq]
      intro he
      exact digitChar_ne_zeroCh n h hn (Option.some.inj he)
    · next h =>
      rcases List.exists_cons_of_ne_nil (natDigits_ne_nil (n / 10)) with ⟨c, t, hct⟩
      rw [hct]
      simp only [List.cons_append, List.head?_cons]
      have := ih (n / 10) (Nat.div_lt_self (by omega) (by omega))
        ((Nat.one_le_div_iff (by omega)).mpr (by omega))
      rw [hct] at this
      simpa using this

theorem digitsToNat_natDigits (n : Nat) : digitsToNat (natDigits n) = n := by
  suffices h : ∀ n a : Nat,
      (natDigits n).foldl (fun a c => a * 10 + (c.toNat - 48)) a =
        a * 10 ^ (natDigits n).length + n by
    have := h n 0
    simpa [digitsToNat] using this
  intro n
  induction n using Nat.strong_induction_on with
  | _ n ih =>
    intro a
    rw [natDigits]
    split
    · next h =>
      have hv : (digitChar n).toNat - 48 = n := digitChar_toNat n h
      simp [List.foldl, hv]
    · next h =>
      have hlt : n / 10 < n := Nat.div_lt_self (by omega) (by omega)
      have hv : (digitChar (n % 10)).toNat - 48 = n % 10 :=
        digitChar_toNat (n % 10) (Nat.mod_lt _ (by omega))
      rw [List.foldl_append, ih (n / 10) hlt a]
      simp only [List.foldl, List.length_append, List.length_singleton, hv]
      rw [pow_succ]
      have hdm : n / 10 * 10 + n % 10 = n := by omega
      ring_nf
      omega

/-- The next character (if any) is not a digit. -/
def headNotDigit : List Char → Bool
  | [] => true
  | c :: _ => !c.isDigit

theorem readDigits_append (ds rest : List Char)
    (hd : ∀ c ∈ ds, c.isDigit = true) (hr : headNotDigit rest = true) :
    readDigits (ds ++ rest) = (ds, rest) := by
  induction ds with
  | nil =>
    cases rest with
    | nil => rfl
    | cons c t =>
      simp only [headNotDigit, Bool.not_eq_true'] at hr
      simp [readDigits, hr]
  | cons d ds ih =>
    have hdd : d.isDigit = true := hd d (List.mem_cons_self d ds)
    have ih2 := ih (fun c hc => hd c (List.mem_cons_of_mem d hc))
    simp [readDigits, hdd, ih2]

theorem natDigits_no_leading_zero (n : Nat) :
    ¬(1 < (natDigits n).length ∧ (natDigits n).head? = some '0') := by
  rintro ⟨hl, hh⟩
  by_cases h : n < 10
  · rw [natDigits] at hl
    simp [h] at hl
  · exact natDigits_head_ne_zero n (by omega) hh

theorem headNotDigit_of_numFollowOk {rest : List Char}
    (h : numFollowOk rest = true) : headNotDigit rest = true := by
  cases rest with
  | nil => rfl
  | cons c t =>
    simp only [numFollowOk, Bool.not_eq_true', Bool.or_eq_false_iff] at h
    simp [headNotDigit, h.1.1.1]

theorem readFrac_of_numFollowOk {rest : List Char}
    (h : numFollowOk rest = true) : readFrac rest = some ([], rest) := by
  cases rest with
  | nil => rfl
  | cons c t =>
    simp only [numFollowOk, Bool.not_eq_true', Bool.or_eq_false_iff,
      decide_eq_false_iff_not] at h
    simp [readFrac, h.1.1.2]

theorem readExp_of_numFollowOk {rest : List Char}
    (h : numFollowOk rest = true) : readExp rest = some (0, rest) := by
  cases rest with
  | nil => rfl
  | cons c t =>
    simp only [numFollowOk, Bool.not_eq_true', Bool.or_eq_false_iff,
      decide_eq_false_iff_not] at h
    simp [readExp, h.1.2, h.2]

theorem splitNeg_of_digit {c : Char} (t : List Char) (h : c.isDigit = true) :
    splitNeg (c :: t) = (false, c :: t) := by
  have : c ≠ '-' := fun he => ne_of_isDigit h (by decide) he
  simp [splitNeg, this]

theorem splitSignE_of_digit {c : Char} (t : List Char) (h : c.isDigit = true) :
    splitSignE (c :: t) = (false, c :: t) := by
  have h1 : c ≠ '-' := fun he => ne_of_isDigit h (by decide) he
  have h2 : c ≠ '+' := fun he => ne_of_isDigit h (by decide) he
  simp [splitSignE, h1, h2]

theorem readDigits_natDigits (n : Nat) (rest : List Char)
    (hr : headNotDigit rest = true) :
    readDigits (natDigits n ++ rest) = (natDigits n, rest) :=
  readDigits_append _ _ (natDigits_digits n) hr

theorem splitNeg_minus (r : List Char) : splitNeg ('-' :: r) = (true, r) := by
  simp [splitNeg]

theorem splitSignE_minus (r : List Char) : splitSignE ('-' :: r) = (true, r) := by
  simp [splitSignE]

theorem parseExpTail_intChars (e : Int) (rest : List Char)
    (hr : headNotDigit rest = true) :
    parseExpTail (intChars e ++ rest) = some (e, rest) := by
  rcases List.exists_cons_of_ne_nil (natDigits_ne_nil e.natAbs) with ⟨c, t, hct⟩
  have hcdig : c.isDigit = true := by
    have := natDigits_digits e.natAbs c
    rw [hct] at this
    exact this (List.mem_cons_self c t)
  by_cases he : e < 0
  · have h1 : intChars e = '-' :: natDigits e.natAbs := by simp [intChars, he]
    rw [h1]
    simp only [List.cons_append, parseExpTail, splitSignE_minus,
      readDigits_natDigits e.natAbs rest hr]
    have hne : (natDigits e.natAbs).isEmpty = false :=
      List.isEmpty_eq_false.mpr (natDigits_ne_nil e.natAbs)
    have habs : ((e.natAbs : Int)) = -e := Int.ofNat_natAbs_of_nonpos (by omega)
    simp [hne, digitsToNat_natDigits, habs]
  · have h1 : intChars e = natDigits e.natAbs := by simp [intChars, he]
    rw [h1, hct]
    simp only [List.cons_append, parseExpTail,
      splitSignE_of_digit (t ++ rest) hcdig]
    rw [show c :: (t ++ rest) = natDigits e.natAbs ++ rest by rw [hct]; simp]
    rw [readDigits_natDigits e.natAbs rest hr]
    have hne : (natDigits e.natAbs).isEmpty = false :=
      List.isEmpty_eq_false.mpr (natDigits_ne_nil e.natAbs)
    have habs : ((e.natAbs : Int)) = e := Int.natAbs_of_nonneg (by omega)
    simp [hne, digitsToNat_natDigits, habs]

theorem hexVal_hexDigChar : ∀ k < 16, hexVal? (hexDigChar k) = some k := by decide

theorem parseHex4_controlEsc (n : Nat) (hn : n < 32) :
    parseHex4 '0' '0' (hexDigChar (n / 16)) (hexDigChar (n % 16)) = some n := by
  have h1 : hexVal? (hexDigChar (n / 16)) = some (n / 16) :=
    hexVal_hexDigChar _ (by omega)
  have h2 : hexVal? (hexDigChar (n % 16)) = some (n % 16) :=
    hexVal_hexDigChar _ (by omega)
  have h0 : hexVal? '0' = some 0 := by decide
  simp only [parseHex4, h0, h1, h2, Option.bind_eq_bind, Option.some_bind]
  simp only [Option.pure_def, Option.some.injEq]
  omega

theorem parseStr_u_step (fuel : Nat) (h1 h2 h3 h4 : Char) (TAIL : List Char)
    (n : Nat) (hh : parseHex4 h1 h2 h3 h4 = some n)
    (hs : ¬(0xD800 ≤ n ∧ n ≤ 0xDBFF)) :
    parseStrChars (fuel + 1) ('\\' :: 'u' :: h1 :: h2 :: h3 :: h4 :: TAIL) =
      (parseStrChars fuel TAIL).map (fun p => (Char.ofNat n :: p.1, p.2)) := by
  match TAIL with
  | [] => simp [parseStrChars, hh]
  | [a] => simp [parseStrChars, hh]
  | a :: b :: t =>
    by_cases ha : a = '\\'
    · by_cases hb : b = 'u'
      · subst ha hb
        match t with
        | g1 :: g2 :: g3 :: g4 :: t2 => simp [parseStrChars, hh, hs]
        | [] => simp [parseStrChars, hh]
        | [x] => simp [parseStrChars, hh]
        | [x, y] => simp [parseStrChars, hh]
        | [x, y, z] => simp [parseStrChars, hh]
      · simp [parseStrChars, hh, ha, hb]
    · simp [parseStrChars, hh, ha]

theorem parseStr_plain (fuel : Nat) (c : Char) (TAIL : List Char) (hq : ¬c = '"')
    (hb : ¬c = '\\') (hc : ¬c.toNat < 32) :
    parseStrChars (fuel + 1) (c :: TAIL) =
      (parseStrChars fuel TAIL).map (fun p => (c :: p.1, p.2)) := by
  match TAIL with
  | [] => simp [parseStrChars, hq, hb, hc]
  | t :: ts => simp [parseStrChars, hq, hb, hc]

theorem parseStrChars_flatMap (cs : List Char) : ∀ fuel rest, cs.length < fuel →
    parseStrChars fuel (cs.flatMap escChar ++ '"' :: rest) = some (cs, rest) := by
  induction cs with
  | nil =>
    intro fuel rest hf
    cases fuel with
    | zero => omega
    | succ f => simp [parseStrChars]
  | cons c cs ih =>
    intro fuel rest hf
    cases fuel with
    | zero => omega
    | succ f =>
      rw [List.flatMap_cons, List.append_assoc]
      have hlen : cs.length < f := by simp at hf; omega
      by_cases hq : c = '"'
      · subst hq
        simp only [escChar, if_pos rfl, List.cons_append, List.nil_append]
        simp [parseStrChars, ih f rest hlen]
      · by_cases hb2 : c = '\\'
        · subst hb2
          simp only [escChar, if_neg hq, if_pos rfl, List.cons_append,
            List.nil_append]
          simp [parseStrChars, ih f rest hlen]
        · by_cases hc : c.toNat < 32
          · simp only [escChar, if_neg hq, if_neg hb2, if_pos hc,
              List.cons_append, List.nil_append]
            rw [parseStr_u_step f _ _ _ _ _ c.toNat
              (parseHex4_controlEsc c.toNat hc) (by omega)]
            rw [ih f rest hlen, Char.ofNat_toNat]
            rfl
          · simp only [escChar, if_neg hq, if_neg hb2, if_neg hc,
              List.cons_append, List.nil_append]
            rw [parseStr_plain f c _ hq hb2 hc, ih f rest hlen]
            rfl

theorem escChar_len_ge (cs : List Char) :
    cs.length ≤ (cs.flatMap escChar).length := by
  induction cs with
  | nil => simp
  | cons c cs ih =>
    have h1 : 1 ≤ (escChar c).length := by
      unfold escChar
      split
      · simp
      · split
        · simp
        · split <;> simp
    simp only [List.flatMap_cons, List.length_append, List.length_cons]
    omega

theorem parseStrChars_key (cs : List Char) (rest : List Char) :
    parseStrChars ((cs.flatMap escChar ++ '"' :: rest).length + 1)
      (cs.flatMap escChar ++ '"' :: rest) = some (cs, rest) := by
  apply parseStrChars_flatMap
  have h1 := escChar_len_ge cs
  have h2 : (cs.flatMap escChar ++ '"' :: rest).length =
      (cs.flatMap escChar).length + 1 + rest.length := by
    simp only [List.length_append, List.length_cons]
    omega
  omega

theorem parseNum_core (m e : Int) (tail rest : List Char)
    (hnd : headNotDigit tail = true)
    (hfr : readFrac tail = some ([], tail))
    (hex : readExp tail = some (e, rest)) :
    parseNum (intChars m ++ tail) = some (.num m e, rest) := by
  have hempty : (natDigits m.natAbs).isEmpty = false :=
    List.isEmpty_eq_false.mpr (natDigits_ne_nil m.natAbs)
  have hlz := natDigits_no_leading_zero m.natAbs
  by_cases hm : m < 0
  · have h1 : intChars m = '-' :: natDigits m.natAbs := by simp [intChars, hm]
    have habs : ((m.natAbs : Int)) = -m := Int.ofNat_natAbs_of_nonpos (by omega)
    rw [h1, List.cons_append]
    simp only [parseNum, splitNeg_minus,
      readDigits_natDigits m.natAbs tail hnd, hempty, hfr, hex,
      Bool.false_eq_true, if_false, if_neg hlz, List.append_nil,
      digitsToNat_natDigits, if_pos rfl]
    simp [habs]
  · rcases List.exists_cons_of_ne_nil (natDigits_ne_nil m.natAbs) with ⟨c, t, hct⟩
    have hcdig : c.isDigit = true := by
      have := natDigits_digits m.natAbs c
      rw [hct] at this
      exact this (List.mem_cons_self c t)
    have habs : ((m.natAbs : Int)) = m := Int.natAbs_of_nonneg (by omega)
    have h1 : intChars m = natDigits m.natAbs := by simp [intChars, hm]
    rw [h1, hct, List.cons_append]
    simp only [parseNum, splitNeg_of_digit _ hcdig]
    rw [show c :: (t ++ tail) = natDigits m.natAbs ++ tail by rw [hct]; simp]
    simp only [readDigits_natDigits m.natAbs tail hnd, hempty,
      Bool.false_eq_true, if_false, if_neg hlz, hfr, hex, List.append_nil,
      digitsToNat_natDigits]
    simp [habs]

theorem parseNum_serNum (m e : Int) (rest : List Char)
    (hf : numFollowOk rest = true) :
    parseNum (intChars m ++ ((if e = 0 then [] else 'e' :: intChars e) ++ rest))
      = some (.num m e, rest) := by
  by_cases he : e = 0
  · subst he
    simp only [if_pos rfl, List.nil_append]
    exact parseNum_core m 0 rest rest (headNotDigit_of_numFollowOk hf)
      (readFrac_of_numFollowOk hf) (readExp_of_numFollowOk hf)
  · rw [if_neg he]
    refine parseNum_core m e ('e' :: (intChars e ++ rest)) rest ?_ ?_ ?_
    · simp [headNotDigit]
    · simp [readFrac]
    · simp only [readExp, if_pos (Or.inl rfl)]
      exact parseExpTail_intChars e rest (headNotDigit_of_numFollowOk hf)

theorem serC_head_facts (v : JsonValue) :
    ∃ c t, serC v = c :: t ∧ wsChar c = false ∧ c ≠ ']' ∧ c ≠ ',' ∧
      c ≠ cbraceC := by
  cases v with
  | null => exact ⟨'n', _, rfl, by decide, by decide, by decide, by decide⟩
  | bool b =>
    cases b with
    | true => exact ⟨'t', _, rfl, by decide, by decide, by decide, by decide⟩
    | false => exact ⟨'f', _, rfl, by decide, by decide, by decide, by decide⟩
  | nan => exact ⟨'N', _, rfl, by decide, by decide, by decide, by decide⟩
  | infinity b =>
    cases b with
    | false => exact ⟨'I', _, rfl, by decide, by decide, by decide, by decide⟩
    | true => exact ⟨'-', _, rfl, by decide, by decide, by decide, by decide⟩
  | str s => exact ⟨'"', _, rfl, by decide, by decide, by decide, by decide⟩
  | num m e =>
    by_cases hm : m < 0
    · refine ⟨'-',
        natDigits m.natAbs ++ (if e = 0 then [] else 'e' :: intChars e),
        ?_, by decide, by decide, by decide, by decide⟩
      simp [serC, intChars, hm]
    · rcases List.exists_cons_of_ne_nil (natDigits_ne_nil m.natAbs) with ⟨c, t, hct⟩
      have hcdig : c.isDigit = true := by
        have := natDigits_digits m.natAbs c
        rw [hct] at this
        exact this (List.mem_cons_self c t)
      refine ⟨c, t ++ (if e = 0 then [] else 'e' :: intChars e), ?_,
        wsChar_eq_false_of_isDigit hcdig,
        fun he => ne_of_isDigit hcdig (by decide) he,
        fun he => ne_of_isDigit hcdig (by decide) he,
        fun he => ne_of_isDigit hcdig (by decide) he⟩
      simp [serC, intChars, hm, hct]
  | arr l =>
    cases l with
    | nil => exact ⟨'[', _, rfl, by decide, by decide, by decide, by decide⟩
    | cons x xs =>
      exact ⟨'[', _, rfl, by decide, by decide, by decide, by decide⟩
  | obj l =>
    cases l with
    | nil => exact ⟨obraceC, _, rfl, by decide, by decide, by decide, by decide⟩
    | cons p ps =>
      exact ⟨obraceC, _, rfl, by decide, by decide, by decide, by decide⟩

theorem keysNodup_iff (l : List (String × JsonValue)) :
    keysNodup l = true ↔ l.Pairwise (fun p q => p.1 ≠ q.1) := by
  induction l with
  | nil => simp [keysNodup]
  | cons p ps ih =>
    simp only [keysNodup, Bool.and_eq_true, Bool.not_eq_true',
      List.pairwise_cons, ih, List.any_eq_false]
    constructor
    · rintro ⟨h1, h2⟩
      exact ⟨fun q hq he => h1 q hq (by simp [he]), h2⟩
    · rintro ⟨h1, h2⟩
      refine ⟨fun q hq => ?_, h2⟩
      simpa using (h1 q hq).symm

theorem keysNodup_front {acc : List (String × JsonValue)} {k : String}
    {v : JsonValue} {ps : List (String × JsonValue)}
    (h : keysNodup (acc ++ (k, v) :: ps) = true) :
    acc.any (fun p => p.1 = k) = false := by
  rw [keysNodup_iff, List.pairwise_append] at h
  apply List.any_eq_false.mpr
  intro p hp
  have := h.2.2 p hp (k, v) (List.mem_cons_self _ _)
  simpa using this

theorem keysNodup_tail {acc : List (String × JsonValue)} {p : String × JsonValue}
    {ps : List (String × JsonValue)}
    (h : keysNodup (acc ++ p :: ps) = true) :
    keysNodup ((acc ++ [p]) ++ ps) = true := by
  simpa using h

theorem objInsert_append {acc : List (String × JsonValue)} {k : String}
    {v : JsonValue} (h : acc.any (fun p => p.1 = k) = false) :
    objInsert acc k v = acc ++ [(k, v)] := by
  simp [objInsert, h]

theorem numFollowOk_serArr (xs : List JsonValue) (rest : List Char) :
    numFollowOk (serArrC xs ++ ']' :: rest) = true := by
  cases xs <;> simp [serArrC, numFollowOk]

theorem numFollowOk_serObj (ps : List (String × JsonValue)) (rest : List Char) :
    numFollowOk (serObjC ps ++ cbraceC :: rest) = true := by
  cases ps <;> simp [serObjC, numFollowOk] <;> decide

theorem parseVal_step_digit (f : Nat) (c : Char) (t cs : List Char)
    (hc : c.isDigit = true) (hcs : skipWs cs = c :: t) :
    parseVal (f + 1) cs = parseNum (c :: t) := by
  simp only [parseVal]
  rw [hcs]
  simp [show ¬c = obraceC from fun he => ne_of_isDigit hc (by decide) he,
    show ¬c = '[' from fun he => ne_of_isDigit hc (by decide) he,
    show ¬c = '"' from fun he => ne_of_isDigit hc (by decide) he,
    show ¬c = 't' from fun he => ne_of_isDigit hc (by decide) he,
    show ¬c = 'f' from fun he => ne_of_isDigit hc (by decide) he,
    show ¬c = 'n' from fun he => ne_of_isDigit hc (by decide) he,
    show ¬c = 'N' from fun he => ne_of_isDigit hc (by decide) he,
    show ¬c = 'I' from fun he => ne_of_isDigit hc (by decide) he,
    show ¬c = '-' from fun he => ne_of_isDigit hc (by decide) he, hc]

theorem parseVal_step_minusDigit (f : Nat) (c2 : Char) (t cs : List Char)
    (hc2 : c2.isDigit = true) (hcs : skipWs cs = '-' :: c2 :: t) :
    parseVal (f + 1) cs = parseNum ('-' :: c2 :: t) := by
  simp only [parseVal]
  rw [hcs]
  simp [obraceC, show ¬c2 = 'I' from fun he => ne_of_isDigit hc2 (by decide) he]

theorem parseVal_step_arr (f : Nat) (c2 : Char) (t cs : List Char)
    (hcs : skipWs cs = '[' :: c2 :: t) (hne : ¬c2 = ']')
    (hnws : wsChar c2 = false) :
    parseVal (f + 1) cs = parseArrElems f (c2 :: t) [] := by
  simp only [parseVal]
  rw [hcs]
  simp [skipWs_cons_of_not_ws _ hnws, show ¬ '[' = obraceC from by decide,
    hne]

theorem parseVal_step_obj (f : Nat) (c2 : Char) (t cs : List Char)
    (hcs : skipWs cs = obraceC :: c2 :: t) (hne : ¬c2 = cbraceC)
    (hnws : wsChar c2 = false) :
    parseVal (f + 1) cs = parseObjFields f (c2 :: t) [] := by
  simp only [parseVal]
  rw [hcs]
  simp [skipWs_cons_of_not_ws _ hnws, hne]

theorem parseVal_step_str (f : Nat) (t cs : List Char)
    (hcs : skipWs cs = '"' :: t) :
    parseVal (f + 1) cs =
      (parseStrChars (t.length + 1) t).map
        (fun p => (JsonValue.str (String.mk p.1), p.2)) := by
  simp only [parseVal]
  rw [hcs]
  simp [obraceC]

mutual

/-- Structural size used as the termination measure of the round-trip
proofs. -/
def jsize : JsonValue → Nat
  | .arr l => 1 + jsizeList l
  | .obj l => 1 + jsizeObj l
  | _ => 1

def jsizeList : List JsonValue → Nat
  | [] => 0
  | x :: xs => 1 + jsize x + jsizeList xs

def jsizeObj : List (String × JsonValue) → Nat
  | [] => 0
  | p :: ps => 1 + jsize p.2 + jsizeObj ps

end

theorem jsize_pos (v : JsonValue) : 1 ≤ jsize v := by
  cases v <;> simp [jsize]

theorem parse_ser_bundle : ∀ N : Nat,
    (∀ v fuel cs rest, jsize v ≤ N → jsonWFb v = true → pfuel v ≤ fuel →
      skipWs cs = serC v ++ rest → numFollowOk rest = true →
      parseVal fuel cs = some (v, rest)) ∧
    (∀ x xs fuel cs rest acc, 1 + jsize x + jsizeList xs ≤ N →
      jsonWFb x = true → jsonWFList xs = true → pfuelArr (x :: xs) ≤ fuel →
      skipWs cs = serC x ++ (serArrC xs ++ ']' :: rest) →
      parseArrElems fuel cs acc = some (.arr (acc ++ x :: xs), rest)) ∧
    (∀ k v ps fuel cs rest acc, 1 + jsize v + jsizeObj ps ≤ N →
      jsonWFb v = true → jsonWFObj ps = true →
      keysNodup (acc ++ (k, v) :: ps) = true → pfuelObj ((k, v) :: ps) ≤ fuel →
      skipWs cs = serEntry (k, v) ++ (serObjC ps ++ cbraceC :: rest) →
      parseObjFields fuel cs acc = some (.obj (acc ++ (k, v) :: ps), rest)) := by
  intro N
  induction N with
  | zero =>
    refine ⟨fun v _ _ _ hN => absurd hN (by have := jsize_pos v; omega),
      fun x _ _ _ _ _ hN => absurd hN (by omega),
      fun _ v _ _ _ _ _ hN => absurd hN (by omega)⟩
  | succ N ih =>
    refine ⟨?_, ?_, ?_⟩
    · -- parseVal on a serialized value
      intro v fuel cs rest hN hwf hfu hcs hnf
      have hp := pfuel_pos v
      cases fuel with
      | zero => omega
      | succ f =>
        cases v with
        | null =>
          simp only [serC, List.cons_append, List.nil_append] at hcs
          simp only [parseVal]
          rw [hcs]
          simp [obraceC, stripLit]
        | bool b =>
          cases b with
          | true =>
            simp only [serC, List.cons_append, List.nil_append] at hcs
            simp only [parseVal]
            rw [hcs]
            simp [obraceC, stripLit]
          | false =>
            simp only [serC, List.cons_append, List.nil_append] at hcs
            simp only [parseVal]
            rw [hcs]
            simp [obraceC, stripLit]
        | nan =>
          simp only [serC, List.cons_append, List.nil_append] at hcs
          simp only [parseVal]
          rw [hcs]
          simp [obraceC, stripLit]
        | infinity b =>
          cases b with
          | false =>
            simp only [serC, List.cons_append, List.nil_append] at hcs
            simp only [parseVal]
            rw [hcs]
            simp [obraceC, stripLit]
          | true =>
            simp only [serC, List.cons_append, List.nil_append] at hcs
            simp only [parseVal]
            rw [hcs]
            simp [obraceC, stripLit]
        | str s =>
          simp only [serC, List.cons_append, List.append_assoc,
            List.nil_append] at hcs
          rw [parseVal_step_str f _ cs hcs]
          rw [parseStrChars_key]
          rfl
        | num m e =>
          simp only [serC] at hcs
          rcases List.exists_cons_of_ne_nil (natDigits_ne_nil m.natAbs) with
            ⟨c2, t2, hct⟩
          have hc2 : c2.isDigit = true := by
            have := natDigits_digits m.natAbs c2
            rw [hct] at this
            exact this (List.mem_cons_self c2 t2)
          by_cases hm : m < 0
          · have h1 : intChars m = '-' :: natDigits m.natAbs := by
              simp [intChars, hm]
            rw [show (intChars m ++ if e = 0 then [] else 'e' :: intChars e) ++ rest =
              '-' :: c2 :: (t2 ++ ((if e = 0 then [] else 'e' :: intChars e) ++ rest))
              from by rw [h1, hct]; simp] at hcs
            rw [parseVal_step_minusDigit f c2 _ cs hc2 hcs]
            rw [show '-' :: c2 ::
                (t2 ++ ((if e = 0 then [] else 'e' :: intChars e) ++ rest)) =
              intChars m ++ ((if e = 0 then [] else 'e' :: intChars e) ++ rest)
              from by rw [h1, hct]; simp]
            exact parseNum_serNum m e rest hnf
          · have h1 : intChars m = natDigits m.natAbs := by simp [intChars, hm]
            rw [show (intChars m ++ if e = 0 then [] else 'e' :: intChars e) ++ rest =
              c2 :: (t2 ++ ((if e = 0 then [] else 'e' :: intChars e) ++ rest))
              from by rw [h1, hct]; simp] at hcs
            rw [parseVal_step_digit f c2 _ cs hc2 hcs]
            rw [show c2 :: (t2 ++ ((if e = 0 then [] else 'e' :: intChars e) ++ rest)) =
              intChars m ++ ((if e = 0 then [] else 'e' :: intChars e) ++ rest)
              from by rw [h1, hct]; simp]
            exact parseNum_serNum m e rest hnf
        | arr l =>
          cases l with
          | nil =>
            simp only [serC, List.cons_append, List.nil_append] at hcs
            simp only [parseVal]
            rw [hcs]
            simp [obraceC, skipWs, wsChar]
          | cons x xs =>
            simp only [jsonWFb, jsonWFList, Bool.and_eq_true] at hwf
            simp only [pfuel] at hfu
            simp only [jsize, jsizeList] at hN
            rcases serC_head_facts x with ⟨cx, tx, hcx, hws, hner, hnec, hnecb⟩
            rw [show serC (JsonValue.arr (x :: xs)) ++ rest =
              '[' :: cx :: (tx ++ (serArrC xs ++ ']' :: rest)) from by
              simp only [serC]; rw [hcx]; simp] at hcs
            rw [parseVal_step_arr f cx _ cs hcs hner hws]
            apply (ih.2.1 : _) x xs f _ rest [] (by omega) hwf.1 hwf.2 (by omega)
            rw [skipWs_cons_of_not_ws _ hws, hcx]
            simp
        | obj l =>
          cases l with
          | nil =>
            simp only [serC, List.cons_append, List.nil_append] at hcs
            simp only [parseVal]
            rw [hcs]
            simp [skipWs_cons_of_not_ws _ (by decide : wsChar cbraceC = false)]
          | cons p ps =>
            rcases p with ⟨k, v⟩
            simp only [jsonWFb, jsonWFObj, Bool.and_eq_true] at hwf
            simp only [pfuel] at hfu
            simp only [jsize, jsizeObj] at hN
            rw [show serC (JsonValue.obj ((k, v) :: ps)) ++ rest =
              obraceC :: '"' :: (k.toList.flatMap escChar ++ ['"', ':', ' '] ++
                serC v ++ (serObjC ps ++ cbraceC :: rest)) from by
              simp [serC, serEntry]] at hcs
            rw [parseVal_step_obj f '"' _ cs hcs (by decide) (by decide)]
            apply (ih.2.2 : _) k v ps f _ rest [] (by omega) hwf.2.1 hwf.2.2
              (by simpa using hwf.1) (by omega)
            rw [skipWs_cons_of_not_ws _ (by decide : wsChar '"' = false)]
            simp [serEntry]
    · -- parseArrElems on serialized elements
      intro x xs fuel cs rest acc hN hwf hwfs hfu hcs
      have hp : 1 ≤ pfuelArr (x :: xs) := by simp [pfuelArr]
      cases fuel with
      | zero => omega
      | succ f =>
        simp only [pfuelArr] at hfu
        simp only [parseArrElems]
        rw [(ih.1 : _) x f cs (serArrC xs ++ ']' :: rest) (by omega) hwf
          (by omega) hcs (numFollowOk_serArr xs rest)]
        cases xs with
        | nil =>
          simp only [serArrC, List.nil_append]
          rw [skipWs_cons_of_not_ws _ (by decide : wsChar ']' = false)]
          simp
        | cons y ys =>
          simp only [jsonWFList, Bool.and_eq_true] at hwfs
          simp only [jsizeList] at hN
          have hxpos := jsize_pos x
          simp only [serArrC, List.cons_append]
          rw [skipWs_cons_of_not_ws _ (by decide : wsChar ',' = false)]
          rcases serC_head_facts y with ⟨cy, ty, hcy, hws, _, _, _⟩
          have hrec := (ih.2.1 : _) y ys f
            (' ' :: (serC y ++ (serArrC ys ++ ']' :: rest))) rest (acc ++ [x])
            (by omega) hwfs.1 hwfs.2
            (by simp only [pfuelArr] at hfu ⊢; omega) (by
              rw [show skipWs (' ' :: (serC y ++ (serArrC ys ++ ']' :: rest))) =
                skipWs (serC y ++ (serArrC ys ++ ']' :: rest)) from by
                simp [skipWs, wsChar]]
              rw [show serC y ++ (serArrC ys ++ ']' :: rest) =
                cy :: (ty ++ (serArrC ys ++ ']' :: rest)) from by rw [hcy]; simp]
              rw [skipWs_cons_of_not_ws _ hws])
          simp [hrec]
    · -- parseObjFields on serialized entries
      intro k v ps fuel cs rest acc hN hwf hwfs hnd hfu hcs
      have hp : 1 ≤ pfuelObj ((k, v) :: ps) := by simp [pfuelObj]
      cases fuel with
      | zero => omega
      | succ f =>
        simp only [pfuelObj] at hfu
        rcases serC_head_facts v with ⟨cv, tv, hcv, hwsv, _, _, _⟩
        have hv := (ih.1 : _) v f
          (' ' :: (serC v ++ (serObjC ps ++ cbraceC :: rest)))
          (serObjC ps ++ cbraceC :: rest) (by omega) hwf (by omega) (by
            rw [show skipWs (' ' :: (serC v ++ (serObjC ps ++ cbraceC :: rest))) =
              skipWs (serC v ++ (serObjC ps ++ cbraceC :: rest)) from by
              simp [skipWs, wsChar]]
            rw [show serC v ++ (serObjC ps ++ cbraceC :: rest) =
              cv :: (tv ++ (serObjC ps ++ cbraceC :: rest)) from by rw [hcv]; simp]
            rw [skipWs_cons_of_not_ws _ hwsv])
          (numFollowOk_serObj ps rest)
        have hins : objInsert acc ⟨k.data⟩ v = acc ++ [(k, v)] :=
          objInsert_append (keysNodup_front hnd)
        simp only [parseObjFields]
        rw [hcs, show serEntry (k, v) ++ (serObjC ps ++ cbraceC :: rest) =
          '"' :: (k.toList.flatMap escChar ++
            '"' :: (':' :: ' ' :: (serC v ++ (serObjC ps ++ cbraceC :: rest))))
          from by simp [serEntry]]
        cases ps with
        | nil =>
          simp only [serObjC, List.nil_append] at hv
          have hkey := parseStrChars_key k.toList
            (':' :: ' ' :: (serC v ++ (serObjC [] ++ cbraceC :: rest)))
          simp [serObjC] at hkey
          simp [hkey,
            skipWs_cons_of_not_ws _ (by decide : wsChar ':' = false), hv, hins,
            serObjC, skipWs_cons_of_not_ws _ (by decide : wsChar cbraceC = false),
            show ¬cbraceC = ',' from by decide]
        | cons q qs =>
          rcases q with ⟨k2, v2⟩
          simp only [jsonWFObj, Bool.and_eq_true] at hwfs
          simp only [jsizeObj] at hN
          have hvpos := jsize_pos v
          have hrec := (ih.2.2 : _) k2 v2 qs f
            (' ' :: (serEntry (k2, v2) ++ (serObjC qs ++ cbraceC :: rest))) rest
            (acc ++ [(k, v)]) (by omega) hwfs.1 hwfs.2
            (by simpa using hnd) (by simp only [pfuelObj] at hfu ⊢; omega) (by
              rw [show skipWs
                  (' ' :: (serEntry (k2, v2) ++ (serObjC qs ++ cbraceC :: rest))) =
                skipWs (serEntry (k2, v2) ++ (serObjC qs ++ cbraceC :: rest))
                from by simp [skipWs, wsChar]]
              rw [show serEntry (k2, v2) ++ (serObjC qs ++ cbraceC :: rest) =
                '"' :: ((k2.toList.flatMap escChar ++ ['"', ':', ' '] ++ serC v2) ++
                  (serObjC qs ++ cbraceC :: rest)) from by simp [serEntry]]
              rw [skipWs_cons_of_not_ws _ (by decide : wsChar '"' = false)])
          simp only [serObjC, List.cons_append, List.append_assoc] at hv
          have hkey := parseStrChars_key k.toList
            (':' :: ' ' :: (serC v ++
              (serObjC ((k2, v2) :: qs) ++ cbraceC :: rest)))
          simp [serObjC] at hkey
          simp [hkey,
            skipWs_cons_of_not_ws _ (by decide : wsChar ':' = false), hv, hins,
            serObjC, skipWs_cons_of_not_ws _ (by decide : wsChar ',' = false),
            hrec]

theorem parseVal_ser (v : JsonValue) (fuel : Nat) (cs rest : List Char)
    (hwf : jsonWFb v = true) (hfu : pfuel v ≤ fuel)
    (hcs : skipWs cs = serC v ++ rest) (hnf : numFollowOk rest = true) :
    parseVal fuel cs = some (v, rest) :=
  (parse_ser_bundle (jsize v)).1 v fuel cs rest le_rfl hwf hfu hcs hnf

theorem serC_length_pos (v : JsonValue) : 1 ≤ (serC v).length := by
  rcases serC_head_facts v with ⟨c, t, hct, _, _, _, _⟩
  simp [hct]

theorem serEntry_length (p : String × JsonValue) :
    (serEntry p).length = 4 + (p.1.toList.flatMap escChar).length +
      (serC p.2).length := by
  rcases p with ⟨k, v⟩
  simp [serEntry]
  omega

theorem pfuel_bound_bundle : ∀ N : Nat,
    (∀ v, jsize v ≤ N → pfuel v ≤ 2 * (serC v).length) ∧
    (∀ l, jsizeList l ≤ N → pfuelArr l ≤ 2 * (serArrC l).length - 1) ∧
    (∀ l, jsizeObj l ≤ N → pfuelObj l ≤ 2 * (serObjC l).length - 1) := by
  intro N
  induction N with
  | zero =>
    refine ⟨fun v hN => absurd hN (by have := jsize_pos v; omega),
      fun l hN => ?_, fun l hN => ?_⟩
    · cases l with
      | nil => simp [pfuelArr, serArrC]
      | cons x xs => exact absurd hN (by simp [jsizeList])
    · cases l with
      | nil => simp [pfuelObj, serObjC]
      | cons p ps => exact absurd hN (by simp [jsizeObj])
  | succ N ih =>
    refine ⟨?_, ?_, ?_⟩
    · intro v hN
      have hlp := serC_length_pos v
      cases v with
      | null => simp only [pfuel]; omega
      | bool b => simp only [pfuel]; omega
      | nan => simp only [pfuel]; omega
      | infinity b => simp only [pfuel]; omega
      | str s => simp only [pfuel]; omega
      | num m e => simp only [pfuel]; omega
      | arr l =>
        cases l with
        | nil => simp [pfuel, serC]
        | cons x xs =>
          simp only [jsize, jsizeList] at hN
          have hb := ih.2.1 (x :: xs) (by simp [jsizeList]; omega)
          simp only [pfuel, serC]
          simp only [serArrC] at hb
          have hx := serC_length_pos x
          simp only [List.length_cons, List.length_append] at hb ⊢
          omega
      | obj l =>
        cases l with
        | nil => simp [pfuel, serC]
        | cons p ps =>
          simp only [jsize, jsizeObj] at hN
          have hb := ih.2.2 (p :: ps) (by simp [jsizeObj]; omega)
          simp only [pfuel, serC]
          simp only [serObjC] at hb
          simp only [List.length_cons, List.length_append] at hb ⊢
          omega
    · intro l hN
      cases l with
      | nil => simp [pfuelArr]
      | cons x xs =>
        simp only [jsizeList] at hN
        have hx := ih.1 x (by omega)
        have hxs := ih.2.1 xs (by have := jsize_pos x; omega)
        simp only [pfuelArr, serArrC]
        simp only [List.length_cons, List.length_append]
        omega
    · intro l hN
      cases l with
      | nil => simp [pfuelObj]
      | cons p ps =>
        simp only [jsizeObj] at hN
        have hv := ih.1 p.2 (by omega)
        have hps := ih.2.2 ps (by have := jsize_pos p.2; omega)
        have hel := serEntry_length p
        have hvl := serC_length_pos p.2
        simp only [pfuelObj, serObjC]
        simp only [List.length_cons, List.length_append]
        omega

theorem pfuel_le_serC (v : JsonValue) : pfuel v ≤ 2 * (serC v).length :=
  (pfuel_bound_bundle (jsize v)).1 v le_rfl

/-- Value-level round trip of the `json.dumps` / `json.loads` models:
decoding the encoding of any well-formed value gives the value back. -/
theorem jsonParse_serialize (v : JsonValue) (hwf : jsonWFb v = true) :
    jsonParse (jsonSerialize v) = some v := by
  rcases serC_head_facts v with ⟨c, t, hct, hws, _, _, _⟩
  have hskip : skipWs (serC v) = serC v ++ [] := by
    rw [hct, skipWs_cons_of_not_ws _ hws]
    simp
  have hparse := parseVal_ser v (2 * (serC v).length + 2) (serC v) []
    hwf (by have := pfuel_le_serC v; omega) hskip rfl
  simp only [jsonParse, jsonSerialize]
  rw [show (String.mk (serC v)).toList = serC v from rfl]
  rw [hparse]
  rfl

/-! ### Streaming chat response: `LLMClient._stream_response`

The generator's loop body, given the already-framed lines of the HTTP
response.  Blank lines are skipped, only `data: `-prefixed lines are
read, `data: [DONE]` ends the stream, a line whose JSON fails to
parse is skipped (`except json.JSONDecodeError: continue`), and a frame
with a falsy `choices` field is skipped.  `frameStep`'s `.error` marks the
Python paths that raise (`AttributeError`/`TypeError`/`KeyError` on
navigating a parsed but unexpectedly-shaped frame), which abort the
generator. -/

/-- `data.get("choices")` / `data["choices"][0].get("delta", \x7b\x7d)` /
`delta.get("content", "")` navigation of one parsed frame. -/
def frameStep (j : JsonValue) : Except Unit (Option JsonValue) :=
  match j with
  | .obj fields =>
    match jlookup fields "choices" with
    | none => .ok none
    | some c =>
      if truthy c then
        match c with
        | .arr (h :: _) =>
          match h with
          | .obj hf =>
            match (jlookup hf "delta").getD (.obj []) with
            | .obj df =>
              let content := (jlookup df "content").getD (.str "")
              if truthy content then .ok (some content) else .ok none
            | _ => .error ()
          | _ => .error ()
        | _ => .error ()
      else .ok none
  | _ => .error ()

/-- Outcome of consuming the stream: the fragments yielded in order, and
whether the generator raised (after those fragments). -/
structure StreamOut where
  fragments : List JsonValue
  errored : Bool

/-- `not line.strip()`: the line is empty or all-whitespace. -/
def pyBlank (line : String) : Bool :=
  line.data.all (fun c => c.isWhitespace)

/-- `str.startswith` at the character level. -/
def leadsWith : List Char → List Char → Bool
  | [], _ => true
  | _ :: _, [] => false
  | p :: ps, c :: cs => p = c && leadsWith ps cs

/-- `line[6:]`: the payload after the `data: ` marker. -/
def lineData (line : String) : String := String.mk (line.data.drop 6)

/-- The streaming loop of `_stream_response` over the response lines. -/
def streamLines : List String → StreamOut
  | [] => ⟨[], false⟩
  | line :: rest =>
    if pyBlank line then streamLines rest
    else if leadsWith "data: ".data line.data then
      if lineData line = "[DONE]" then ⟨[], false⟩
      else
        match jsonParse (lineData line) with
        | none => streamLines rest
        | some j =>
          match frameStep j with
          | .error _ => ⟨[], true⟩
          | .ok none => streamLines rest
          | .ok (some c) =>
            let r := streamLines rest
            ⟨c :: r.fragments, r.errored⟩
    else streamLines rest

/-- The single yielded content of one line, when the line is a
well-formed yielding frame. -/
def lineFrag (line : String) : Option JsonValue :=
  if pyBlank line then none
  else if leadsWith "data: ".data line.data then
    if lineData line = "[DONE]" then none
    else
      match jsonParse (lineData line) with
      | none => none
      | some j =>
        match frameStep j with
        | .ok c => c
        | .error _ => none
  else none

/-- Whether a line makes the generator raise (frame parses to a shape
the navigation code cannot handle). -/
def lineBad (line : String) : Bool :=
  if pyBlank line then false
  else if leadsWith "data: ".data line.data then
    if lineData line = "[DONE]" then false
    else
      match jsonParse (lineData line) with
      | none => false
      | some j =>
        match frameStep j with
        | .ok _ => false
        | .error _ => true
  else false

/-- The `data: [DONE]` terminator. -/
def isDoneLine (line : String) : Bool :=
  if pyBlank line then false
  else if leadsWith "data: ".data line.data then lineData line = "[DONE]"
  else false

theorem streamLines_spec (lines : List String)
    (h : ∀ l ∈ lines, lineBad l = false) :
    streamLines lines =
      ⟨(lines.takeWhile (fun l => !isDoneLine l)).filterMap lineFrag, false⟩ := by
  induction lines with
  | nil => rfl
  | cons l rest ih =>
    have hl : lineBad l = false := h l (List.mem_cons_self l rest)
    have hrest := ih (fun x hx => h x (List.mem_cons_of_mem l hx))
    by_cases hb : pyBlank l
    · simp [streamLines, lineFrag, isDoneLine, hb, hrest]
    · by_cases hs : leadsWith "data: ".data l.data
      · by_cases hd : lineData l = "[DONE]"
        · simp [streamLines, lineFrag, isDoneLine, hb, hs, hd]
        · cases hp : jsonParse (lineData l) with
          | none =>
            simp [streamLines, lineFrag, isDoneLine, hb, hs, hd, hp, hrest]
          | some j =>
            cases hf : frameStep j with
            | error e =>
              exfalso
              rw [show lineBad l = true from by
                simp [lineBad, hb, hs, hd, hp, hf]] at hl
              exact Bool.noConfusion hl
            | ok c =>
              cases c with
              | none =>
                simp [streamLines, lineFrag, isDoneLine, hb, hs, hd, hp, hf,
                  hrest]
              | some v =>
                simp [streamLines, lineFrag, isDoneLine, hb, hs, hd, hp, hf,
                  hrest]
      · simp [streamLines, lineFrag, isDoneLine, hb, hs, hrest]

/-! ### Persistent store: schema of `database.py` + CRUD of `manager.py`

Rows mirror the tables created by `Database._create_schema`; timestamps
are modelled by a monotone `Nat` clock (`CURRENT_TIMESTAMP`): every
statement stamps with the state's `now`, and `advanceClock` models time
passing between statements.  A failing statement (constraint violation,
raised to the caller by sqlite3) leaves the store unchanged, which is
SQLite's statement-level ABORT behaviour. -/

/-- `messages.role` CHECK constraint. -/
def rolesAllowed : List String := ["user", "assistant", "system", "tool"]

/-- A `conversations` row. -/
structure ConvRow where
  id : Nat
  title : String
  created_at : Nat
  updated_at : Nat
  metadata : Option String
deriving DecidableEq, Repr

/-- A `messages` row. -/
structure MsgRow where
  id : Nat
  conversation_id : Nat
  role : String
  content : String
  tokens : Int
  model : Option String
  created_at : Nat
  metadata : Option String
deriving DecidableEq, Repr

/-- An `images` row. -/
structure ImageRow where
  id : Nat
  message_id : Nat
  file_path : String
  file_name : String
  file_size : Int
  mime_type : String
  width : Option Int
  height : Option Int
  hash : Option String
  created_at : Nat
  metadata : Option String
deriving DecidableEq, Repr

/-- A `vision_analyses` row. -/
structure VisRow where
  id : Nat
  image_id : Nat
  message_id : Option Nat
  model : String
  description : Option String
  detected_objects : Option String
  extracted_text : Option String
  tags : Option String
  confidence : Option Rat
  processing_time : Option Rat
  created_at : Nat
  metadata : Option String
deriving DecidableEq

/-- A `tool_executions` row. -/
structure ToolRow where
  id : Nat
  message_id : Option Nat
  tool_name : String
  parameters : Option String
  result : Option String
  status : String
  duration_ms : Option Rat
  error_message : Option String
  created_at : Nat
deriving DecidableEq

/-- A `context` row (`key` is the primary key, `value` is NOT NULL). -/
structure CtxRow where
  key : String
  value : String
  category : Option String
  created_at : Nat
  updated_at : Nat
deriving DecidableEq, Repr

/-- The whole store. -/
structure DBState where
  conversations : List ConvRow
  messages : List MsgRow
  images : List ImageRow
  visionAnalyses : List VisRow
  toolExecutions : List ToolRow
  context : List CtxRow
  nextConvId : Nat
  nextMsgId : Nat
  nextImgId : Nat
  now : Nat
deriving DecidableEq

/-- Errors a statement can raise (sqlite3 exceptions). -/
inductive DbError where
  | notNullViolation
  | uniqueViolation
  | foreignKeyViolation
  | checkViolation
deriving DecidableEq, Repr

/-- Time passes between statements. -/
def advanceClock (s : DBState) (d : Nat) : DBState := { s with now := s.now + d }

/-- `MemoryManager._to_json`: Python `None` maps to SQL NULL, everything
else is `json.dumps`ed. -/
def toJsonDb : JsonValue → Option String
  | .null => none
  | v => some (jsonSerialize v)

/-- `MemoryManager._from_json`: SQL NULL or empty text gives `None`,
undecodable text fails soft to `\x7b\x7d` with a warning log. -/
def fromJsonDb : Option String → JsonValue
  | none => .null
  | some s =>
    if s.data.isEmpty then .null
    else
      match jsonParse s with
      | some v => v
      | none => .obj []

/-- Python `metadata or \x7b\x7d`. -/
def orEmptyObj (md : Option JsonValue) : JsonValue :=
  match md with
  | none => .obj []
  | some m => if truthy m then m else .obj []

/-- `MemoryManager.create_conversation`: one INSERT, one commit,
returning the materialized row. -/
def createConversation (s : DBState) (title : String)
    (metadata : Option JsonValue) : DBState × ConvRow :=
  let row : ConvRow :=
    { id := s.nextConvId, title := title, created_at := s.now,
      updated_at := s.now,
      metadata := toJsonDb (orEmptyObj metadata) }
  ({ s with
      conversations := s.conversations ++ [row]
      nextConvId := s.nextConvId + 1 }, row)

/-- The Pydantic `Conversation` returned by reads. -/
structure ConversationM where
  id : Nat
  title : String
  created_at : Nat
  updated_at : Nat
  metadata : JsonValue

/-- `MemoryManager.get_conversation`: SELECT by id; `None` when no row. -/
def getConversation (s : DBState) (conversation_id : Nat) :
    DBState × Option ConversationM :=
  match s.conversations.find? (fun c => c.id = conversation_id) with
  | none => (s, none)
  | some r =>
    (s, some ⟨r.id, r.title, r.created_at, r.updated_at, fromJsonDb r.metadata⟩)

/-- `MemoryManager.add_message`: one INSERT subject to the `role` CHECK
and the `conversation_id` FOREIGN KEY (enabled by `PRAGMA foreign_keys`),
then commit. -/
def addMessage (s : DBState) (conversation_id : Nat) (role : String)
    (content : String) (tokens : Int) (model : Option String)
    (metadata : Option JsonValue) : DBState × Except DbError MsgRow :=
  if role ∉ rolesAllowed then (s, .error .checkViolation)
  else if ¬s.conversations.any (fun c => c.id = conversation_id) then
    (s, .error .foreignKeyViolation)
  else
    let row : MsgRow :=
      { id := s.nextMsgId, conversation_id := conversation_id, role := role,
        content := content, tokens := tokens, model := model,
        created_at := s.now,
        metadata := toJsonDb (orEmptyObj metadata) }
    ({ s with
        messages := s.messages ++ [row]
        nextMsgId := s.nextMsgId + 1 }, .ok row)

/-- Stable insertion used to model `ORDER BY created_at ASC` (rows with
equal keys keep their table order, as the rowid-ordered scan yields). -/
def insertByTime (m : MsgRow) : List MsgRow → List MsgRow
  | [] => [m]
  | x :: xs =>
    if x.created_at < m.created_at then x :: insertByTime m xs
    else m :: x :: xs

/-- Stable sort by `created_at`. -/
def sortByTime : List MsgRow → List MsgRow
  | [] => []
  | x :: xs => insertByTime x (sortByTime xs)

/-- `MemoryManager.get_messages`: SELECT ... WHERE conversation_id = ?
ORDER BY created_at ASC. -/
def getMessages (s : DBState) (conversation_id : Nat) : List MsgRow :=
  sortByTime (s.messages.filter (fun m => m.conversation_id = conversation_id))

/-- `MemoryManager.delete_conversation`: a single DELETE statement; the
schema's `ON DELETE CASCADE` clauses remove descendant messages, images,
vision analyses and tool executions; returns `rowcount > 0` (cascaded
rows are not counted by sqlite3's rowcount). -/
def deleteConversation (s : DBState) (conversation_id : Nat) :
    DBState × Bool :=
  let delConvIds := (s.conversations.filter
    (fun c => c.id = conversation_id)).map (fun c => c.id)
  let delMsgIds := (s.messages.filter
    (fun m => m.conversation_id ∈ delConvIds)).map (fun m => m.id)
  let delImgIds := (s.images.filter
    (fun i => i.message_id ∈ delMsgIds)).map (fun i => i.id)
  let existed := s.conversations.any (fun c => c.id = conversation_id)
  ({ s with
      conversations := s.conversations.filter
        (fun c => ¬c.id = conversation_id)
      messages := s.messages.filter
        (fun m => decide (m.conversation_id ∉ delConvIds))
      images := s.images.filter
        (fun i => decide (i.message_id ∉ delMsgIds))
      visionAnalyses := s.visionAnalyses.filter
        (fun v => decide (v.image_id ∉ delImgIds) &&
          (match v.message_id with
           | some m => decide (m ∉ delMsgIds)
           | none => true))
      toolExecutions := s.toolExecutions.filter
        (fun t => match t.message_id with
          | some m => decide (m ∉ delMsgIds)
          | none => true) },
    existed)

/-- `MemoryManager.add_image`: one INSERT subject to the `message_id`
FOREIGN KEY and the UNIQUE constraint on `hash` (NULL hashes never
conflict). -/
def addImage (s : DBState) (message_id : Nat) (file_path file_name : String)
    (file_size : Int) (mime_type : String) (width height : Option Int)
    (hash_str : Option String) (metadata : Option JsonValue) :
    DBState × Except DbError ImageRow :=
  if ¬s.messages.any (fun m => m.id = message_id) then
    (s, .error .foreignKeyViolation)
  else if (match hash_str with
    | some h => s.images.any (fun i => i.hash = some h)
    | none => false) then
    (s, .error .uniqueViolation)
  else
    let row : ImageRow :=
      { id := s.nextImgId, message_id := message_id, file_path := file_path,
        file_name := file_name, file_size := file_size,
        mime_type := mime_type, width := width, height := height,
        hash := hash_str, created_at := s.now,
        metadata := toJsonDb (orEmptyObj metadata) }
    ({ s with
        images := s.images ++ [row]
        nextImgId := s.nextImgId + 1 }, .ok row)

/-- `MemoryManager.set_context`: INSERT ... ON CONFLICT(key) DO UPDATE,
always refreshing `updated_at`; the `value` column is NOT NULL, so a
`None` value (mapped to SQL NULL by `_to_json`) makes the statement fail
and leaves the table unchanged. -/
def setContext (s : DBState) (key : String) (value : JsonValue)
    (category : Option String) : DBState × Except DbError Unit :=
  match toJsonDb value with
  | none => (s, .error .notNullViolation)
  | some json_val =>
    if s.context.any (fun r => r.key = key) then
      ({ s with context := s.context.map (fun r =>
          if r.key = key then
            { r with
                value := json_val
                category := category
                updated_at := s.now }
          else r) }, .ok ())
    else
      ({ s with context := s.context ++
          [{ key := key, value := json_val, category := category,
             created_at := s.now, updated_at := s.now }] }, .ok ())

/-- `MemoryManager.get_context`: SELECT value WHERE key = ?, decoded;
`None` when the key is absent. -/
def getContext (s : DBState) (key : String) : JsonValue :=
  match s.context.find? (fun r => r.key = key) with
  | none => .null
  | some r => fromJsonDb (some r.value)

/-! ### Agent.chat (`core/agent.py`), streaming mode -/

/-- Environmental behaviour of one streaming turn: whether loading the
history raises (e.g. the connection is gone), the text fragments the
gateway stream yields before finishing or raising, whether it raises
after them, whether persisting the assistant message raises, the
exception text, and `model_name or "local-model"`. -/
structure TurnEnv where
  historyFails : Bool
  gwFragments : List String
  gwErrored : Bool
  persistFails : Bool
  errMsg : String
  modelName : String
deriving DecidableEq, Repr

/-- What the caller observes from one turn: the chunks yielded to it (the
synthetic error fragment included) and whether the call raised. -/
structure TurnResult where
  yielded : List String
  raised : Bool
deriving DecidableEq, Repr

/-- The synthetic error fragment `"\n Errore: " + str(e)`. -/
def errFragment (msg : String) : String := "\n Errore: " ++ msg

/-- `Agent.chat` in streaming mode over the store model.  Steps:
1. persist the user message (commit; a failure here propagates);
2. load the ordered history — written before the `try`, so an exception
   there also propagates;
3.–5. inside the `try`: iterate the gateway stream re-yielding each
   chunk while accumulating it, and after a successful stream persist
   one assistant message only when the accumulated text is truthy;
   any exception in these steps is caught and surfaced to the caller as
   one synthetic error fragment. -/
def agentChat (s : DBState) (conversation_id : Nat) (user_input : String)
    (env : TurnEnv) : DBState × TurnResult :=
  match addMessage s conversation_id "user" user_input 0 none none with
  | (_, .error _) => (s, ⟨[], true⟩)
  | (s1, .ok _) =>
    if env.historyFails then (s1, ⟨[], true⟩)
    else if env.gwErrored then
      (s1, ⟨env.gwFragments ++ [errFragment env.errMsg], false⟩)
    else
      let full := String.join env.gwFragments
      if full.data.isEmpty then (s1, ⟨env.gwFragments, false⟩)
      else if env.persistFails then
        (s1, ⟨env.gwFragments ++ [errFragment env.errMsg], false⟩)
      else
        match addMessage s1 conversation_id "assistant" full 0
          (some env.modelName) none with
        | (s2, .ok _) => (s2, ⟨env.gwFragments, false⟩)
        | (_, .error _) =>
          (s1, ⟨env.gwFragments ++ [errFragment env.errMsg], false⟩)

/-- The messages of one conversation, in table order. -/
def msgsOf (s : DBState) (conversation_id : Nat) : List MsgRow :=
  s.messages.filter (fun m => m.conversation_id = conversation_id)

/-- How many assistant-role messages a conversation holds. -/
def assistantCount (s : DBState) (conversation_id : Nat) : Nat :=
  ((msgsOf s conversation_id).filter (fun m => m.role = "assistant")).length

/-! ### Store lemmas -/

/-- The message table is in chronological order (rowids grow with time). -/
def MsgsChrono (s : DBState) : Prop :=
  s.messages.Pairwise (fun a b => a.created_at ≤ b.created_at)

/-- No stored message is stamped later than the clock. -/
def MsgsStamped (s : DBState) : Prop :=
  ∀ m ∈ s.messages, m.created_at ≤ s.now

theorem sortByTime_eq_self (l : List MsgRow)
    (h : l.Pairwise (fun a b => a.created_at ≤ b.created_at)) :
    sortByTime l = l := by
  induction l with
  | nil => rfl
  | cons x xs ih =>
    rw [List.pairwise_cons] at h
    rw [sortByTime, ih h.2]
    cases xs with
    | nil => rfl
    | cons y ys =>
      have hy : ¬y.created_at < x.created_at :=
        Nat.not_lt.mpr (h.1 y (by simp))
      simp [insertByTime, hy]

theorem getMessages_of_chrono (s : DBState) (conversation_id : Nat)
    (h : MsgsChrono s) :
    getMessages s conversation_id = msgsOf s conversation_id := by
  unfold getMessages msgsOf
  exact sortByTime_eq_self _ (List.Pairwise.filter _ h)

/-- `add_message` on a valid role and existing conversation: the new row,
stamped with the current time, is appended to the table. -/
theorem addMessage_ok_eq (s : DBState) (conversation_id : Nat) (role : String)
    (content : String) (tokens : Int) (model : Option String)
    (metadata : Option JsonValue)
    (hrole : role ∈ rolesAllowed)
    (hconv : s.conversations.any (fun c => c.id = conversation_id) = true) :
    addMessage s conversation_id role content tokens model metadata =
      ({ s with
          messages := s.messages ++
            [{ id := s.nextMsgId, conversation_id := conversation_id,
               role := role, content := content, tokens := tokens,
               model := model, created_at := s.now,
               metadata := toJsonDb (orEmptyObj metadata) }]
          nextMsgId := s.nextMsgId + 1 },
        .ok { id := s.nextMsgId, conversation_id := conversation_id,
              role := role, content := content, tokens := tokens,
              model := model, created_at := s.now,
              metadata := toJsonDb (orEmptyObj metadata) }) := by
  simp [addMessage, hrole, hconv]

/-- Append one message row (the state change a successful INSERT makes). -/
def pushMsg (s : DBState) (m : MsgRow) : DBState :=
  { s with
      messages := s.messages ++ [m]
      nextMsgId := s.nextMsgId + 1 }

/-- The user row step 1 of `Agent.chat` INSERTs. -/
def mkUser (s : DBState) (conversation_id : Nat) (input : String) : MsgRow :=
  { id := s.nextMsgId, conversation_id := conversation_id, role := "user",
    content := input, tokens := 0, model := none, created_at := s.now,
    metadata := toJsonDb (orEmptyObj none) }

/-- The assistant row step 4 of `Agent.chat` INSERTs. -/
def mkAsst (s : DBState) (conversation_id : Nat) (content : String)
    (model : String) : MsgRow :=
  { id := s.nextMsgId, conversation_id := conversation_id,
    role := "assistant", content := content, tokens := 0,
    model := some model, created_at := s.now,
    metadata := toJsonDb (orEmptyObj none) }

/-- Branch-by-branch description of a turn over an existing conversation. -/
theorem agentChat_eq (s : DBState) (conversation_id : Nat) (input : String)
    (env : TurnEnv)
    (hconv : s.conversations.any (fun c => c.id = conversation_id) = true) :
    agentChat s conversation_id input env =
      (if env.historyFails then
        (pushMsg s (mkUser s conversation_id input), ⟨[], true⟩)
      else if env.gwErrored then
        (pushMsg s (mkUser s conversation_id input),
          ⟨env.gwFragments ++ [errFragment env.errMsg], false⟩)
      else if (String.join env.gwFragments).data.isEmpty then
        (pushMsg s (mkUser s conversation_id input), ⟨env.gwFragments, false⟩)
      else if env.persistFails then
        (pushMsg s (mkUser s conversation_id input),
          ⟨env.gwFragments ++ [errFragment env.errMsg], false⟩)
      else
        (pushMsg (pushMsg s (mkUser s conversation_id input))
          (mkAsst (pushMsg s (mkUser s conversation_id input)) conversation_id
            (String.join env.gwFragments) env.modelName),
          ⟨env.gwFragments, false⟩)) := by
  have hadd := addMessage_ok_eq s conversation_id "user" input 0 none none
    (by decide) hconv
  have hconv1 : (pushMsg s (mkUser s conversation_id input)).conversations.any
      (fun c => c.id = conversation_id) = true := hconv
  have hadd2 := addMessage_ok_eq (pushMsg s (mkUser s conversation_id input))
    conversation_id "assistant" (String.join env.gwFragments) 0
    (some env.modelName) none (by decide) hconv1
  simp only [pushMsg, mkUser, mkAsst] at hadd2 ⊢
  simp only [agentChat, hadd, hadd2]

/-- A sequence of `add_message` calls on one conversation: each item is a
clock advance (statements happen at weakly increasing times) followed by
one INSERT of a (role, content) pair. -/
def addMessages (s : DBState) (conversation_id : Nat) :
    List (Nat × String × String) → DBState
  | [] => s
  | it :: rest =>
    addMessages
      ((addMessage (advanceClock s it.1) conversation_id it.2.1 it.2.2 0
        none none).1)
      conversation_id rest

/-- The observable part of a message row. -/
def rc (m : MsgRow) : String × String := (m.role, m.content)

/-- The row a plain `add_message(conversation_id, role, content)` INSERTs. -/
def mkRow (s : DBState) (conversation_id : Nat) (role content : String) :
    MsgRow :=
  { id := s.nextMsgId, conversation_id := conversation_id, role := role,
    content := content, tokens := 0, model := none, created_at := s.now,
    metadata := toJsonDb (orEmptyObj none) }

theorem msgsOf_pushMsg (s : DBState) (m : MsgRow) (conversation_id : Nat)
    (hm : m.conversation_id = conversation_id) :
    msgsOf (pushMsg s m) conversation_id = msgsOf s conversation_id ++ [m] := by
  simp [msgsOf, pushMsg, List.filter_append, hm]

theorem addMessages_spec (conversation_id : Nat) :
    ∀ (items : List (Nat × String × String)) (s : DBState),
    MsgsChrono s → MsgsStamped s →
    s.conversations.any (fun c => c.id = conversation_id) = true →
    (∀ it ∈ items, it.2.1 ∈ rolesAllowed) →
    (getMessages (addMessages s conversation_id items) conversation_id).map rc
      = (getMessages s conversation_id).map rc
        ++ items.map (fun it => (it.2.1, it.2.2)) := by
  intro items
  induction items with
  | nil =>
    intro s _ _ _ _
    simp [addMessages]
  | cons it rest ih =>
    intro s hchr hst hconv hroles
    obtain ⟨d, role, content⟩ := it
    have hrole : role ∈ rolesAllowed := hroles (d, role, content) (by simp)
    have hconv' : (advanceClock s d).conversations.any
        (fun c => c.id = conversation_id) = true := hconv
    have hadd := addMessage_ok_eq (advanceClock s d) conversation_id role
      content 0 none none hrole hconv'
    have hstep : (addMessage (advanceClock s d) conversation_id role content 0
        none none).1 =
        pushMsg (advanceClock s d)
          (mkRow (advanceClock s d) conversation_id role content) := by
      rw [hadd]; rfl
    rw [addMessages, hstep]
    set s' := pushMsg (advanceClock s d)
      (mkRow (advanceClock s d) conversation_id role content) with hs'
    have hchr' : MsgsChrono s' := by
      rw [hs']
      show List.Pairwise (fun a b => a.created_at ≤ b.created_at)
        ((advanceClock s d).messages ++
          [mkRow (advanceClock s d) conversation_id role content])
      rw [List.pairwise_append]
      refine ⟨hchr, by simp, ?_⟩
      intro a ha b hb
      simp only [List.mem_singleton] at hb
      subst hb
      calc a.created_at ≤ s.now := hst a ha
        _ ≤ s.now + d := Nat.le_add_right _ _
    have hst' : MsgsStamped s' := by
      rw [hs']
      intro m hm
      simp only [pushMsg, List.mem_append, List.mem_singleton] at hm
      rcases hm with hm | hm
      · calc m.created_at ≤ s.now := hst m hm
          _ ≤ (pushMsg (advanceClock s d)
              (mkRow (advanceClock s d) conversation_id role content)).now :=
            Nat.le_add_right _ _
      · subst hm; exact Nat.le_refl _
    have hconv'' : s'.conversations.any
        (fun c => c.id = conversation_id) = true := hconv
    have := ih s' hchr' hst' hconv'' (fun x hx => hroles x (by simp [hx]))
    rw [this]
    rw [getMessages_of_chrono _ _ hchr', getMessages_of_chrono _ _ hchr]
    rw [hs', msgsOf_pushMsg (advanceClock s d)
      (mkRow (advanceClock s d) conversation_id role content)
      conversation_id rfl]
    have hmsgsAdv : msgsOf (advanceClock s d) conversation_id =
        msgsOf s conversation_id := rfl
    simp [hmsgsAdv, rc, mkRow]

theorem assistantCount_push_other (s : DBState) (m : MsgRow)
    (conversation_id : Nat) (hm : ¬m.role = "assistant") :
    assistantCount (pushMsg s m) conversation_id =
      assistantCount s conversation_id := by
  by_cases hc : m.conversation_id = conversation_id
  · simp [assistantCount, msgsOf_pushMsg s m conversation_id hc,
      List.filter_append, hm]
  · simp [assistantCount, msgsOf, pushMsg, List.filter_append, hc]

theorem assistantCount_push_assistant (s : DBState) (m : MsgRow)
    (conversation_id : Nat) (hm : m.role = "assistant")
    (hc : m.conversation_id = conversation_id) :
    assistantCount (pushMsg s m) conversation_id =
      assistantCount s conversation_id + 1 := by
  simp [assistantCount, msgsOf_pushMsg s m conversation_id hc,
    List.filter_append, hm]

theorem msgsOf_length_push (s : DBState) (m : MsgRow) (conversation_id : Nat)
    (hc : m.conversation_id = conversation_id) :
    (msgsOf (pushMsg s m) conversation_id).length =
      (msgsOf s conversation_id).length + 1 := by
  simp [msgsOf_pushMsg s m conversation_id hc]

theorem toJsonDb_of_ne_null (v : JsonValue) (hv : v ≠ JsonValue.null) :
    toJsonDb v = some (jsonSerialize v) := by
  cases v with
  | null => exact absurd rfl hv
  | bool b => rfl
  | num m e => rfl
  | str t => rfl
  | nan => rfl
  | infinity b => rfl
  | arr l => rfl
  | obj f => rfl

theorem fromJsonDb_serialize (v : JsonValue) (hwf : jsonWFb v = true) :
    fromJsonDb (some (jsonSerialize v)) = v := by
  have hne : (jsonSerialize v).data.isEmpty = false := by
    apply List.isEmpty_eq_false.mpr
    intro hnil
    have := serC_length_pos v
    rw [show (jsonSerialize v).data = serC v from rfl] at hnil
    rw [hnil] at this
    simp at this
  simp [fromJsonDb, hne, jsonParse_serialize v hwf]

/-- The new field values an `ON CONFLICT(key) DO UPDATE` writes. -/
def ctxApply (json_val : String) (category : Option String) (now : Nat)
    (r : CtxRow) : CtxRow :=
  { r with
      value := json_val
      category := category
      updated_at := now }

/-- The per-row effect of the DO UPDATE clause. -/
def ctxUpd (k json_val : String) (category : Option String) (now : Nat)
    (r : CtxRow) : CtxRow :=
  if r.key = k then ctxApply json_val category now r else r

theorem ctxApply_key (json_val : String) (category : Option String)
    (now : Nat) (r : CtxRow) : (ctxApply json_val category now r).key = r.key
    := rfl

theorem ctxUpd_filter (l : List CtxRow) (k json_val : String)
    (category : Option String) (now : Nat) :
    (l.map (ctxUpd k json_val category now)).filter (fun r => r.key = k) =
      (l.filter (fun r => r.key = k)).map (ctxApply json_val category now)
    := by
  induction l with
  | nil => rfl
  | cons x xs ih =>
    by_cases hx : x.key = k
    · simp [ctxUpd, ctxApply, hx, ih]
    · simp [ctxUpd, ctxApply, hx, ih]

theorem ctxUpd_find (l : List CtxRow) (k json_val : String)
    (category : Option String) (now : Nat)
    (hany : l.any (fun r => r.key = k) = true) :
    ∃ r, (l.map (ctxUpd k json_val category now)).find?
        (fun r => r.key = k) = some r ∧
      r.value = json_val ∧ r.updated_at = now ∧ r.key = k := by
  induction l with
  | nil => simp at hany
  | cons x xs ih =>
    by_cases hx : x.key = k
    · refine ⟨ctxApply json_val category now x, ?_, rfl, rfl, hx⟩
      simp [ctxUpd, ctxApply, hx]
    · have hany' : xs.any (fun r => r.key = k) = true := by
        rcases List.any_eq_true.mp hany with ⟨r, hr, hrk⟩
        rcases List.mem_cons.mp hr with rfl | hr'
        · exact absurd (of_decide_eq_true hrk) hx
        · exact List.any_eq_true.mpr ⟨r, hr', hrk⟩
      obtain ⟨r, hfind, hval, hupd, hkey⟩ := ih hany'
      refine ⟨r, ?_, hval, hupd, hkey⟩
      simp [ctxUpd, ctxApply, hx, hfind]

theorem ctxUpd_all (l : List CtxRow) (k json_val : String)
    (category : Option String) (now : Nat) :
    ∀ r ∈ l.map (ctxUpd k json_val category now), r.key = k →
      r.value = json_val ∧ r.updated_at = now := by
  intro r hr hkey
  rw [List.mem_map] at hr
  obtain ⟨x, hx, rfl⟩ := hr
  by_cases hxk : x.key = k
  · simp [ctxUpd, ctxApply, hxk]
  · exact absurd (by simpa [ctxUpd, ctxApply, hxk] using hkey) hxk

theorem find?_append_left_none {α : Type} (l1 l2 : List α) (p : α → Bool)
    (h : l1.find? p = none) : (l1 ++ l2).find? p = l2.find? p := by
  induction l1 with
  | nil => rfl
  | cons x xs ih =>
    by_cases hpx : p x = true
    · rw [List.find?_cons_of_pos _ hpx] at h
      exact absurd h (by simp)
    · rw [List.find?_cons_of_neg _ hpx] at h
      rw [List.cons_append, List.find?_cons_of_neg _ hpx]
      exact ih h

theorem ctxUpd_any (l : List CtxRow) (k json_val : String)
    (category : Option String) (now : Nat) :
    (l.map (ctxUpd k json_val category now)).any (fun r => r.key = k) =
      l.any (fun r => r.key = k) := by
  induction l with
  | nil => rfl
  | cons x xs ih =>
    by_cases hx : x.key = k
    · simp [ctxUpd, ctxApply, hx]
    · simp [ctxUpd, ctxApply, hx, ih]

theorem filter_length_pos_of_any {α : Type} (l : List α) (p : α → Bool)
    (h : l.any p = true) : 0 < (l.filter p).length := by
  rcases List.any_eq_true.mp h with ⟨x, hx, hp⟩
  have hmem : x ∈ l.filter p := List.mem_filter.mpr ⟨hx, hp⟩
  exact List.length_pos.mpr (List.ne_nil_of_mem hmem)

/-- `set_context` on a non-`None` value: update in place on a key hit,
append otherwise, in both cases stamping `updated_at` with the current
time. -/
theorem setContext_ok_eq (s : DBState) (k : String) (v : JsonValue)
    (category : Option String) (hv : v ≠ JsonValue.null) :
    setContext s k v category =
      (if s.context.any (fun r => r.key = k) then
        ({ s with context := s.context.map (ctxUpd k (jsonSerialize v) category s.now) }, Except.ok ())
      else
        ({ s with context := s.context ++
            [{ key := k
               value := jsonSerialize v
               category := category
               created_at := s.now
               updated_at := s.now }] }, Except.ok ())) := by
  have hfun : (fun r : CtxRow =>
      if r.key = k then
        { r with
            value := jsonSerialize v
            category := category
            updated_at := s.now }
      else r) = ctxUpd k (jsonSerialize v) category s.now := by
    funext r
    by_cases hr : r.key = k <;> simp [ctxUpd, ctxApply, hr]
  simp only [setContext, toJsonDb_of_ne_null v hv, hfun]

/-- After a successful `set_context`, the key is present, backed by
exactly one row (assuming the PRIMARY KEY invariant held before), and
the clock is untouched. -/
theorem setContext_post (s : DBState) (k : String) (v : JsonValue)
    (category : Option String) (hv : v ≠ JsonValue.null)
    (hkey : (s.context.filter (fun r => r.key = k)).length ≤ 1) :
    (setContext s k v category).1.context.any (fun r => r.key = k) = true ∧
    ((setContext s k v category).1.context.filter
      (fun r => r.key = k)).length = 1 ∧
    (setContext s k v category).1.now = s.now := by
  rw [setContext_ok_eq s k v category hv]
  by_cases hany : s.context.any (fun r => r.key = k) = true
  · rw [if_pos hany]
    refine ⟨?_, ?_, rfl⟩
    · show (s.context.map (ctxUpd k (jsonSerialize v) category s.now)).any
        (fun r => r.key = k) = true
      rw [ctxUpd_any]; exact hany
    · show ((s.context.map (ctxUpd k (jsonSerialize v) category s.now)).filter
        (fun r => r.key = k)).length = 1
      rw [ctxUpd_filter, List.length_map]
      have hpos := filter_length_pos_of_any s.context
        (fun r => decide (r.key = k)) hany
      omega
  · rw [if_neg hany]
    have hnone : ∀ r ∈ s.context, ¬(r.key = k) := by
      intro r hr hrk
      exact hany (List.any_eq_true.mpr ⟨r, hr, decide_eq_true hrk⟩)
    have hfilter : s.context.filter (fun r => r.key = k) = [] := by
      rw [List.filter_eq_nil]
      intro r hr
      simpa using hnone r hr
    refine ⟨?_, ?_, rfl⟩
    · show (s.context ++ [_]).any (fun r : CtxRow => r.key = k) = true
      rw [List.any_append]
      simp
    · show ((s.context ++ [_]).filter
        (fun r : CtxRow => r.key = k)).length = 1
      rw [List.filter_append, hfilter]
      simp

/-- The ids of the messages of one conversation. -/
def convMsgIds (s : DBState) (conversation_id : Nat) : List Nat :=
  (s.messages.filter (fun m => m.conversation_id = conversation_id)).map
    (fun m => m.id)

/-- The ids of the images attached to messages of one conversation. -/
def convImgIds (s : DBState) (conversation_id : Nat) : List Nat :=
  (s.images.filter
    (fun i => i.message_id ∈ convMsgIds s conversation_id)).map (fun i => i.id)

/-- The conversation ids deleted by the DELETE statement itself. -/
def delConvIdsD (s : DBState) (conversation_id : Nat) : List Nat :=
  (s.conversations.filter (fun c => c.id = conversation_id)).map
    (fun c => c.id)

/-- The message ids removed by the first cascade level. -/
def delMsgIdsD (s : DBState) (conversation_id : Nat) : List Nat :=
  (s.messages.filter
    (fun m => m.conversation_id ∈ delConvIdsD s conversation_id)).map
    (fun m => m.id)

/-- The image ids removed by the second cascade level. -/
def delImgIdsD (s : DBState) (conversation_id : Nat) : List Nat :=
  (s.images.filter
    (fun i => i.message_id ∈ delMsgIdsD s conversation_id)).map
    (fun i => i.id)

theorem delConvIdsD_mem (s : DBState) (conversation_id : Nat)
    (hex : s.conversations.any (fun c => c.id = conversation_id) = true) :
    ∀ x, x ∈ delConvIdsD s conversation_id ↔ x = conversation_id := by
  intro x
  unfold delConvIdsD
  constructor
  · intro hx
    rcases List.mem_map.mp hx with ⟨c, hc, rfl⟩
    exact of_decide_eq_true (List.mem_filter.mp hc).2
  · rintro rfl
    rcases List.any_eq_true.mp hex with ⟨c, hc, hcid⟩
    exact List.mem_map.mpr
      ⟨c, List.mem_filter.mpr ⟨hc, hcid⟩, of_decide_eq_true hcid⟩

theorem delMsgIdsD_eq (s : DBState) (conversation_id : Nat)
    (hex : s.conversations.any (fun c => c.id = conversation_id) = true) :
    delMsgIdsD s conversation_id = convMsgIds s conversation_id := by
  unfold delMsgIdsD convMsgIds
  congr 1
  apply List.filter_congr
  intro m _
  exact decide_eq_decide.mpr (delConvIdsD_mem s conversation_id hex
    m.conversation_id)

theorem delImgIdsD_eq (s : DBState) (conversation_id : Nat)
    (hex : s.conversations.any (fun c => c.id = conversation_id) = true) :
    delImgIdsD s conversation_id = convImgIds s conversation_id := by
  unfold delImgIdsD convImgIds
  congr 1
  apply List.filter_congr
  intro i _
  apply decide_eq_decide.mpr
  rw [delMsgIdsD_eq s conversation_id hex]

/-- The image row a successful `add_image` INSERTs. -/
def mkImg (s : DBState) (message_id : Nat) (fp fn : String) (fs : Int)
    (mt : String) (w ht : Option Int) (hash_str : Option String)
    (md : Option JsonValue) : ImageRow :=
  { id := s.nextImgId, message_id := message_id, file_path := fp,
    file_name := fn, file_size := fs, mime_type := mt, width := w,
    height := ht, hash := hash_str, created_at := s.now,
    metadata := toJsonDb (orEmptyObj md) }

/-- Append one image row. -/
def pushImg (s : DBState) (i : ImageRow) : DBState :=
  { s with
      images := s.images ++ [i]
      nextImgId := s.nextImgId + 1 }

/-- A NULL-hash `add_image` on an existing message always succeeds: NULL
values never conflict under the UNIQUE constraint. -/
theorem addImage_none_ok (s : DBState) (message_id : Nat) (fp fn : String)
    (fs : Int) (mt : String) (w ht : Option Int) (md : Option JsonValue)
    (hmsg : s.messages.any (fun m => m.id = message_id) = true) :
    addImage s message_id fp fn fs mt w ht none md =
      (pushImg s (mkImg s message_id fp fn fs mt w ht none md),
        Except.ok (mkImg s message_id fp fn fs mt w ht none md)) := by
  simp [addImage, pushImg, mkImg, hmsg]

/-! ### Concrete fixtures -/

/-- A store holding one conversation (id 1) and nothing else, clock at 7. -/
def dbConv1 : DBState :=
  ⟨[⟨1, "T", 0, 0, none⟩], [], [], [], [], [], 2, 1, 1, 7⟩

/-- One conversation, one message (id 1), one image with hash `"h"`. -/
def dbImg1 : DBState :=
  ⟨[⟨1, "T", 0, 0, none⟩], [⟨1, 1, "user", "hi", 0, none, 0, none⟩],
    [⟨1, 1, "p", "n", 5, "image/png", none, none, some "h", 0, none⟩],
    [], [], [], 2, 2, 2, 7⟩

/-- One row in every child table of conversation 1. -/
def dbFull : DBState :=
  ⟨[⟨1, "T", 0, 0, none⟩], [⟨1, 1, "user", "hi", 0, none, 0, none⟩],
    [⟨1, 1, "p", "n", 5, "image/png", none, none, none, 0, none⟩],
    [⟨1, 1, some 1, "m", none, none, none, none, none, none, 0, none⟩],
    [⟨1, some 1, "t", none, none, "success", none, none, 0⟩],
    [], 2, 2, 2, 9⟩

/-- A turn whose stream yields nothing and nothing fails. -/
def envEmptyStream : TurnEnv := ⟨false, [], false, false, "", "m"⟩

/-- A turn where loading the history (step 2) raises. -/
def envHistFail : TurnEnv := ⟨true, [], false, false, "boom", "m"⟩

/-- A turn where the gateway raises after yielding one fragment. -/
def envGwErr : TurnEnv := ⟨false, ["He"], true, false, "boom", "m"⟩

/-- `data: \x7b"choices":[\x7b"delta":\x7b"content":"Hel"\x7d\x7d]\x7d`. -/
def frameHel : String :=
  "data: \x7b\"choices\":[\x7b\"delta\":\x7b\"content\":\"Hel\"\x7d\x7d]\x7d"

/-- The same frame carrying `"lo"`. -/
def frameLo : String :=
  "data: \x7b\"choices\":[\x7b\"delta\":\x7b\"content\":\"lo\"\x7d\x7d]\x7d"

/-- The `data: [DONE]` terminator line. -/
def frameDone : String := "data: [DONE]"

/-- A data line whose payload is not valid JSON. -/
def frameGarbage : String := "data: \x7bgarbage"

/-- A whitespace-only line. -/
def blankLine : String := "   "

/-! ### The claims -/

/-- **C9**: `set_context` with value `None` fails with a constraint error
rather than storing JSON `null`: `_to_json` maps `None` to SQL NULL, the
`context.value` column is NOT NULL, so the INSERT is rejected and the
table is unchanged — even though `None` is JSON-serializable
(`json.dumps(None) == "null"`). -/
theorem set_context_none_rejected (s : DBState) (k : String)
    (category : Option String) :
    setContext s k JsonValue.null category =
      (s, Except.error DbError.notNullViolation) ∧
    toJsonDb JsonValue.null = none ∧
    jsonSerialize JsonValue.null = "null" := by
  refine ⟨rfl, rfl, ?_⟩
  simp [jsonSerialize, serC]

/-- **C10**: for an id with no conversation row, `get_conversation`
returns `None` (no exception, no entity) and the store is unchanged. -/
theorem get_conversation_missing (s : DBState) (conversation_id : Nat)
    (h : ∀ c ∈ s.conversations, c.id ≠ conversation_id) :
    getConversation s conversation_id = (s, none) := by
  have hfind : s.conversations.find? (fun c => c.id = conversation_id)
      = none := by
    rw [List.find?_eq_none]
    intro c hc
    simpa using h c hc
  simp [getConversation, hfind]

theorem get_conversation_missing_witness :
    (∀ c ∈ dbConv1.conversations, c.id ≠ 2) ∧
    getConversation dbConv1 2 = (dbConv1, none) :=
  ⟨by decide, get_conversation_missing dbConv1 2 (by decide)⟩

/-- **C4** (counterexample): on a store whose clock has advanced to 7,
`add_message` inserts a child message stamped 7 yet the parent
conversation's `updated_at` stays 0 — no statement in `add_message`
touches the `conversations` table, refuting "updated_at bumped on any
child write". -/
theorem add_message_no_parent_bump_cex :
    ((addMessage dbConv1 1 "user" "hi" 0 none none).1.conversations.map
      (fun c => c.updated_at)) = [0] ∧
    ((addMessage dbConv1 1 "user" "hi" 0 none none).1.messages.map
      (fun m => m.created_at)) = [7] ∧
    dbConv1.now = 7 :=
  ⟨rfl, rfl, rfl⟩

/-- **C4** (amended): `add_message` leaves the `conversations` table —
and with it every parent's `updated_at` — entirely unchanged, whether
the INSERT succeeds or fails. -/
theorem add_message_leaves_conversations (s : DBState)
    (conversation_id : Nat) (role content : String) (tokens : Int)
    (model : Option String) (metadata : Option JsonValue) :
    (addMessage s conversation_id role content tokens model
      metadata).1.conversations = s.conversations := by
  unfold addMessage
  split
  · rfl
  · split
    · rfl
    · rfl

/-- **C2** (counterexample): `history = await self.memory.get_messages(...)`
(step 2) sits *before* the `try` in `Agent.chat`, so an exception there
propagates to the caller instead of being surfaced as a synthetic error
fragment: the turn raises and yields nothing. -/
theorem chat_step2_exception_escapes_cex :
    (agentChat dbConv1 1 "hi" envHistFail).2.raised = true ∧
    (agentChat dbConv1 1 "hi" envHistFail).2.yielded = [] :=
  ⟨rfl, rfl⟩

/-- **C2** (amended): once the user message is committed (step 1) and
the history loads without raising (an exception there — step 2, outside
the `try` — would propagate), any failure of steps 3–5 is caught inside
`Agent.chat`: the call never raises, the committed user message is still
in the conversation (no rollback), and a gateway or persistence failure
is surfaced to the caller as exactly one synthetic error fragment
appended after the fragments already yielded. -/
theorem chat_error_containment (s : DBState) (conversation_id : Nat)
    (input : String) (env : TurnEnv)
    (hconv : s.conversations.any (fun c => c.id = conversation_id) = true)
    (hhist : env.historyFails = false) :
    (agentChat s conversation_id input env).2.raised = false ∧
    (∃ t, (msgsOf (agentChat s conversation_id input env).1
        conversation_id).map rc =
      (msgsOf s conversation_id).map rc ++ ("user", input) :: t) ∧
    ((env.gwErrored = true ∨ (env.persistFails = true ∧
        String.join env.gwFragments ≠ "")) →
      (agentChat s conversation_id input env).2.yielded =
        env.gwFragments ++ [errFragment env.errMsg]) := by
  rw [agentChat_eq s conversation_id input env hconv]
  have huser : msgsOf (pushMsg s (mkUser s conversation_id input))
      conversation_id = msgsOf s conversation_id ++
        [mkUser s conversation_id input] :=
    msgsOf_pushMsg s (mkUser s conversation_id input) conversation_id rfl
  simp only [hhist, Bool.false_eq_true, if_false]
  split_ifs with h2 h3 h4
  · refine ⟨rfl, ⟨[], ?_⟩, fun _ => rfl⟩
    show (msgsOf (pushMsg s (mkUser s conversation_id input))
      conversation_id).map rc = _
    rw [huser]
    simp [rc, mkUser]
  · refine ⟨rfl, ⟨[], ?_⟩, ?_⟩
    · show (msgsOf (pushMsg s (mkUser s conversation_id input))
        conversation_id).map rc = _
      rw [huser]
      simp [rc, mkUser]
    · intro h
      rcases h with h | ⟨_, hne⟩
      · exact absurd h h2
      · exfalso
        apply hne
        have hdata : (String.join env.gwFragments).data = [] := by
          simpa using h3
        exact String.ext hdata
  · refine ⟨rfl, ⟨[], ?_⟩, fun _ => rfl⟩
    show (msgsOf (pushMsg s (mkUser s conversation_id input))
      conversation_id).map rc = _
    rw [huser]
    simp [rc, mkUser]
  · refine ⟨rfl,
      ⟨[("assistant", String.join env.gwFragments)], ?_⟩, ?_⟩
    · show (msgsOf (pushMsg (pushMsg s (mkUser s conversation_id input))
        (mkAsst (pushMsg s (mkUser s conversation_id input))
          conversation_id (String.join env.gwFragments) env.modelName))
        conversation_id).map rc = _
      rw [msgsOf_pushMsg (pushMsg s (mkUser s conversation_id input))
        (mkAsst (pushMsg s (mkUser s conversation_id input))
          conversation_id (String.join env.gwFragments) env.modelName)
        conversation_id rfl, huser]
      simp [rc, mkUser, mkAsst]
    · intro h
      rcases h with h | ⟨hp, _⟩
      · exact absurd h h2
      · exact absurd hp h4

theorem chat_error_containment_witness :
    (dbConv1.conversations.any (fun c => c.id = 1) = true) ∧
    (envGwErr.historyFails = false) ∧
    ((agentChat dbConv1 1 "hi" envGwErr).2.raised = false ∧
    (∃ t, (msgsOf (agentChat dbConv1 1 "hi" envGwErr).1 1).map rc =
      (msgsOf dbConv1 1).map rc ++ ("user", "hi") :: t) ∧
    ((envGwErr.gwErrored = true ∨ (envGwErr.persistFails = true ∧
        String.join envGwErr.gwFragments ≠ "")) →
      (agentChat dbConv1 1 "hi" envGwErr).2.yielded =
        envGwErr.gwFragments ++ [errFragment envGwErr.errMsg])) :=
  ⟨by decide, rfl, chat_error_containment dbConv1 1 "hi" envGwErr
    (by decide) rfl⟩

/-- **C1**: a turn writes at most one assistant message; none when the
accumulated response text is empty; and on an existing conversation, a
gateway that yields zero fragments (whether or not it then errors)
leaves the conversation exactly one message longer — the user message —
never two. -/
theorem chat_turn_assistant_discipline (s : DBState) (conversation_id : Nat)
    (input : String) (env : TurnEnv) :
    assistantCount (agentChat s conversation_id input env).1
        conversation_id ≤ assistantCount s conversation_id + 1 ∧
    (String.join env.gwFragments = "" →
      assistantCount (agentChat s conversation_id input env).1
        conversation_id = assistantCount s conversation_id) ∧
    (s.conversations.any (fun c => c.id = conversation_id) = true →
      env.gwFragments = [] →
      (msgsOf (agentChat s conversation_id input env).1
        conversation_id).length = (msgsOf s conversation_id).length + 1)
    := by
  by_cases hconv : s.conversations.any
    (fun c => c.id = conversation_id) = true
  · rw [agentChat_eq s conversation_id input env hconv]
    have huser : assistantCount (pushMsg s (mkUser s conversation_id input))
        conversation_id = assistantCount s conversation_id :=
      assistantCount_push_other s (mkUser s conversation_id input)
        conversation_id (by simp [mkUser])
    have hasst : assistantCount
        (pushMsg (pushMsg s (mkUser s conversation_id input))
          (mkAsst (pushMsg s (mkUser s conversation_id input))
            conversation_id (String.join env.gwFragments) env.modelName))
        conversation_id =
        assistantCount (pushMsg s (mkUser s conversation_id input))
          conversation_id + 1 :=
      assistantCount_push_assistant _ _ _ rfl rfl
    have hlen : (msgsOf (pushMsg s (mkUser s conversation_id input))
        conversation_id).length = (msgsOf s conversation_id).length + 1 :=
      msgsOf_length_push s _ conversation_id rfl
    split_ifs with h1 h2 h3 h4
    · exact ⟨huser.le.trans (Nat.le_succ _), fun _ => huser,
        fun _ _ => hlen⟩
    · exact ⟨huser.le.trans (Nat.le_succ _), fun _ => huser,
        fun _ _ => hlen⟩
    · exact ⟨huser.le.trans (Nat.le_succ _), fun _ => huser,
        fun _ _ => hlen⟩
    · refine ⟨huser.le.trans (Nat.le_succ _), fun hj => ?_, fun _ hf => ?_⟩
      · exact absurd (by rw [hj]; rfl) h3
      · exact absurd (by rw [hf]; rfl) h3
    · refine ⟨?_, fun hj => ?_, fun _ hf => ?_⟩
      · have h5 : assistantCount
            (pushMsg (pushMsg s (mkUser s conversation_id input))
              (mkAsst (pushMsg s (mkUser s conversation_id input))
                conversation_id (String.join env.gwFragments)
                env.modelName)) conversation_id =
            assistantCount s conversation_id + 1 := by
          rw [hasst, huser]
        exact h5.le
      · exact absurd (by rw [hj]; rfl) h3
      · exact absurd (by rw [hf]; rfl) h3
  · have haddfail : addMessage s conversation_id "user" input 0 none none =
        (s, Except.error DbError.foreignKeyViolation) := by
      simp +decide [addMessage, rolesAllowed, hconv]
    simp only [agentChat, haddfail]
    exact ⟨Nat.le_succ _, fun _ => by trivial, fun hc _ => absurd hc hconv⟩

theorem chat_turn_assistant_discipline_witness :
    (String.join envEmptyStream.gwFragments = "") ∧
    (dbConv1.conversations.any (fun c => c.id = 1) = true) ∧
    (envEmptyStream.gwFragments = []) ∧
    (assistantCount (agentChat dbConv1 1 "hi" envEmptyStream).1 1 ≤
      assistantCount dbConv1 1 + 1) ∧
    (assistantCount (agentChat dbConv1 1 "hi" envEmptyStream).1 1 =
      assistantCount dbConv1 1) ∧
    ((msgsOf (agentChat dbConv1 1 "hi" envEmptyStream).1 1).length =
      (msgsOf dbConv1 1).length + 1) :=
  ⟨rfl, by decide, rfl,
    (chat_turn_assistant_discipline dbConv1 1 "hi" envEmptyStream).1,
    (chat_turn_assistant_discipline dbConv1 1 "hi" envEmptyStream).2.1 rfl,
    (chat_turn_assistant_discipline dbConv1 1 "hi" envEmptyStream).2.2
      (by decide) rfl⟩

/-- **C3**: over any list of lines none of which crashes the navigation
code, the stream yields exactly the non-empty delta contents of the
well-formed `data: ` frames, in arrival order, up to the `[DONE]`
terminator — blank lines and unparsable frames are skipped, not fatal.
Concretely: the `Hel` / `lo` / `[DONE]` sequence yields fragments
joining to `"Hello"`, and a garbage line between the two valid frames
still lets both arrive in order. -/
theorem stream_frames_reassembly :
    (∀ lines : List String, (∀ l ∈ lines, lineBad l = false) →
      streamLines lines =
        ⟨(lines.takeWhile (fun l => !isDoneLine l)).filterMap lineFrag,
          false⟩) ∧
    streamLines [frameHel, frameLo, frameDone] =
      ⟨[JsonValue.str "Hel", JsonValue.str "lo"], false⟩ ∧
    String.join ["Hel", "lo"] = "Hello" ∧
    streamLines [frameHel, frameGarbage, frameLo, frameDone] =
      ⟨[JsonValue.str "Hel", JsonValue.str "lo"], false⟩ :=
  ⟨fun lines h => streamLines_spec lines h, rfl, rfl, rfl⟩

theorem stream_frames_reassembly_witness :
    (∀ l ∈ [frameHel, blankLine, frameLo, frameDone], lineBad l = false) ∧
    streamLines [frameHel, blankLine, frameLo, frameDone] =
      ⟨([frameHel, blankLine, frameLo, frameDone].takeWhile
        (fun l => !isDoneLine l)).filterMap lineFrag, false⟩ :=
  ⟨by decide, stream_frames_reassembly.1
    [frameHel, blankLine, frameLo, frameDone] (by decide)⟩

/-- **C5**: starting from any chronologically consistent store holding
the conversation, inserting N messages in sequence (the clock moving
forward between statements) makes `get_messages` — which orders by
`created_at` ascending — return the prior history followed by exactly
those N (role, content) pairs in insertion order, for every N ≥ 0. -/
theorem messages_insertion_order (s : DBState) (conversation_id : Nat)
    (items : List (Nat × String × String))
    (hchr : MsgsChrono s) (hst : MsgsStamped s)
    (hconv : s.conversations.any (fun c => c.id = conversation_id) = true)
    (hroles : ∀ it ∈ items, it.2.1 ∈ rolesAllowed) :
    (getMessages (addMessages s conversation_id items)
        conversation_id).map rc =
      (getMessages s conversation_id).map rc
        ++ items.map (fun it => (it.2.1, it.2.2)) :=
  addMessages_spec conversation_id items s hchr hst hconv hroles

theorem messages_insertion_order_witness :
    MsgsChrono dbConv1 ∧ MsgsStamped dbConv1 ∧
    (dbConv1.conversations.any (fun c => c.id = 1) = true) ∧
    (∀ it ∈ [(0, "user", "a"), (1, "assistant", "b"), (2, "user", "c")],
      (it : Nat × String × String).2.1 ∈ rolesAllowed) ∧
    (getMessages (addMessages dbConv1 1
        [(0, "user", "a"), (1, "assistant", "b"), (2, "user", "c")]) 1).map rc
      = (getMessages dbConv1 1).map rc
        ++ [(0, "user", "a"), (1, "assistant", "b"), (2, "user", "c")].map
          (fun it => ((it : Nat × String × String).2.1, it.2.2)) :=
  ⟨List.Pairwise.nil,
    by intro m hm; exact absurd hm (List.not_mem_nil m),
    by decide, by decide,
    messages_insertion_order dbConv1 1
      [(0, "user", "a"), (1, "assistant", "b"), (2, "user", "c")]
      List.Pairwise.nil
      (by intro m hm; exact absurd hm (List.not_mem_nil m))
      (by decide) (by decide)⟩

/-- **C6**: `delete_conversation` is one DELETE whose `ON DELETE CASCADE`
chain removes the conversation and, transitively, all its messages, the
images attached to those messages, the vision analyses referencing those
images or messages, and the tool executions referencing those messages —
zero descendant rows remain; the returned flag (`rowcount > 0`, cascaded
rows uncounted) is true iff a conversation row was actually removed. -/
theorem delete_conversation_cascades (s : DBState) (conversation_id : Nat) :
    (∀ c ∈ (deleteConversation s conversation_id).1.conversations,
      c.id ≠ conversation_id) ∧
    ((deleteConversation s conversation_id).2 = true ↔
      ∃ c ∈ s.conversations, c.id = conversation_id) ∧
    ((deleteConversation s conversation_id).2 = true →
      (∀ m ∈ (deleteConversation s conversation_id).1.messages,
        m.conversation_id ≠ conversation_id) ∧
      (∀ i ∈ (deleteConversation s conversation_id).1.images,
        i.message_id ∉ convMsgIds s conversation_id) ∧
      (∀ v ∈ (deleteConversation s conversation_id).1.visionAnalyses,
        v.image_id ∉ convImgIds s conversation_id ∧
        ∀ mid, v.message_id = some mid →
          mid ∉ convMsgIds s conversation_id) ∧
      (∀ t ∈ (deleteConversation s conversation_id).1.toolExecutions,
        ∀ mid, t.message_id = some mid →
          mid ∉ convMsgIds s conversation_id)) := by
  refine ⟨?_, ?_, ?_⟩
  · intro c hc
    have hc' : c ∈ s.conversations.filter
        (fun c => ¬c.id = conversation_id) := hc
    exact of_decide_eq_true (List.mem_filter.mp hc').2
  · show s.conversations.any (fun c => c.id = conversation_id) = true ↔ _
    simp [List.any_eq_true]
  · intro hex'
    have hex : s.conversations.any
        (fun c => c.id = conversation_id) = true := hex'
    refine ⟨?_, ?_, ?_, ?_⟩
    · intro m hm heq
      have hm' : m ∈ s.messages.filter
          (fun m => m.conversation_id ∉ delConvIdsD s conversation_id) := hm
      exact of_decide_eq_true (List.mem_filter.mp hm').2
        ((delConvIdsD_mem s conversation_id hex m.conversation_id).mpr heq)
    · intro i hi hmem
      have hi' : i ∈ s.images.filter
          (fun i => i.message_id ∉ delMsgIdsD s conversation_id) := hi
      apply of_decide_eq_true (List.mem_filter.mp hi').2
      rw [delMsgIdsD_eq s conversation_id hex]
      exact hmem
    · intro v hv
      have hv' : v ∈ s.visionAnalyses.filter
          (fun v => decide (v.image_id ∉ delImgIdsD s conversation_id) &&
            (match v.message_id with
             | some m => decide (m ∉ delMsgIdsD s conversation_id)
             | none => true)) := hv
      have hpred := (List.mem_filter.mp hv').2
      rw [Bool.and_eq_true] at hpred
      constructor
      · intro hmem
        apply of_decide_eq_true hpred.1
        rw [delImgIdsD_eq s conversation_id hex]
        exact hmem
      · intro mid hmid hmem
        have h2 := hpred.2
        rw [hmid] at h2
        apply of_decide_eq_true h2
        rw [delMsgIdsD_eq s conversation_id hex]
        exact hmem
    · intro t ht mid hmid hmem
      have ht' : t ∈ s.toolExecutions.filter
          (fun t => match t.message_id with
            | some m => decide (m ∉ delMsgIdsD s conversation_id)
            | none => true) := ht
      have hpred := (List.mem_filter.mp ht').2
      rw [hmid] at hpred
      apply of_decide_eq_true hpred
      rw [delMsgIdsD_eq s conversation_id hex]
      exact hmem

theorem delete_conversation_cascades_witness :
    ((deleteConversation dbFull 1).2 = true) ∧
    ((∀ m ∈ (deleteConversation dbFull 1).1.messages,
        m.conversation_id ≠ 1) ∧
      (∀ i ∈ (deleteConversation dbFull 1).1.images,
        i.message_id ∉ convMsgIds dbFull 1) ∧
      (∀ v ∈ (deleteConversation dbFull 1).1.visionAnalyses,
        v.image_id ∉ convImgIds dbFull 1 ∧
        ∀ mid, v.message_id = some mid → mid ∉ convMsgIds dbFull 1) ∧
      (∀ t ∈ (deleteConversation dbFull 1).1.toolExecutions,
        ∀ mid, t.message_id = some mid → mid ∉ convMsgIds dbFull 1)) :=
  ⟨by decide, (delete_conversation_cascades dbFull 1).2.2 (by decide)⟩

/-- **C7**: `set_context` is an upsert keyed by `key` that refreshes
`updated_at`: writing `v1` then (after the clock moves by `d`) `v2`
under the same key leaves `get_context` returning `v2`, exactly one row
for the key, and that row's `updated_at` stamped with the later time —
assuming the PRIMARY KEY invariant (at most one row per key) held
initially, with non-NULL decodable values. -/
theorem set_context_upsert (s : DBState) (k : String) (v1 v2 : JsonValue)
    (cat1 cat2 : Option String) (d : Nat)
    (hv1 : v1 ≠ JsonValue.null) (hv2 : v2 ≠ JsonValue.null)
    (hwf2 : jsonWFb v2 = true)
    (hkey : (s.context.filter (fun r => r.key = k)).length ≤ 1) :
    getContext ((setContext (advanceClock ((setContext s k v1 cat1).1) d)
      k v2 cat2).1) k = v2 ∧
    ((((setContext (advanceClock ((setContext s k v1 cat1).1) d)
      k v2 cat2).1).context.filter (fun r => r.key = k)).length = 1) ∧
    (∀ r ∈ ((setContext (advanceClock ((setContext s k v1 cat1).1) d)
      k v2 cat2).1).context, r.key = k → r.updated_at = s.now + d) := by
  obtain ⟨hany1, hlen1, hnow1⟩ := setContext_post s k v1 cat1 hv1 hkey
  have hanyA : (advanceClock ((setContext s k v1 cat1).1) d).context.any
      (fun r => r.key = k) = true := hany1
  have h2 := setContext_ok_eq (advanceClock ((setContext s k v1 cat1).1) d)
    k v2 cat2 hv2
  rw [if_pos hanyA] at h2
  have hnowA : (advanceClock ((setContext s k v1 cat1).1) d).now =
      s.now + d := by
    show ((setContext s k v1 cat1).1).now + d = s.now + d
    rw [hnow1]
  refine ⟨?_, ?_, ?_⟩
  · rw [h2]
    show getContext { (advanceClock ((setContext s k v1 cat1).1) d) with
        context := (advanceClock ((setContext s k v1 cat1).1) d).context.map
          (ctxUpd k (jsonSerialize v2) cat2
            (advanceClock ((setContext s k v1 cat1).1) d).now) } k = v2
    obtain ⟨r, hfind, hval, _, _⟩ := ctxUpd_find
      (advanceClock ((setContext s k v1 cat1).1) d).context k
      (jsonSerialize v2) cat2
      (advanceClock ((setContext s k v1 cat1).1) d).now hanyA
    unfold getContext
    show (match ((advanceClock ((setContext s k v1 cat1).1) d).context.map
        (ctxUpd k (jsonSerialize v2) cat2
          (advanceClock ((setContext s k v1 cat1).1) d).now)).find?
        (fun r => r.key = k) with
      | none => JsonValue.null
      | some r => fromJsonDb (some r.value)) = v2
    rw [hfind]
    show fromJsonDb (some r.value) = v2
    rw [hval]
    exact fromJsonDb_serialize v2 hwf2
  · rw [h2]
    show (((advanceClock ((setContext s k v1 cat1).1) d).context.map
        (ctxUpd k (jsonSerialize v2) cat2
          (advanceClock ((setContext s k v1 cat1).1) d).now)).filter
        (fun r => r.key = k)).length = 1
    rw [ctxUpd_filter, List.length_map]
    exact hlen1
  · rw [h2]
    intro r hr hrk
    have hr' : r ∈ (advanceClock ((setContext s k v1 cat1).1) d).context.map
        (ctxUpd k (jsonSerialize v2) cat2
          (advanceClock ((setContext s k v1 cat1).1) d).now) := hr
    have := (ctxUpd_all _ k (jsonSerialize v2) cat2 _ r hr' hrk).2
    rw [hnowA] at this
    exact this

theorem set_context_upsert_witness :
    (JsonValue.bool true ≠ JsonValue.null) ∧
    (JsonValue.bool false ≠ JsonValue.null) ∧
    (jsonWFb (JsonValue.bool false) = true) ∧
    ((dbConv1.context.filter (fun r => r.key = "k")).length ≤ 1) ∧
    (getContext ((setContext (advanceClock
        ((setContext dbConv1 "k" (JsonValue.bool true) none).1) 1)
      "k" (JsonValue.bool false) (some "c")).1) "k" = JsonValue.bool false ∧
    ((((setContext (advanceClock
        ((setContext dbConv1 "k" (JsonValue.bool true) none).1) 1)
      "k" (JsonValue.bool false) (some "c")).1).context.filter
        (fun r => r.key = "k")).length = 1) ∧
    (∀ r ∈ (((setContext (advanceClock
        ((setContext dbConv1 "k" (JsonValue.bool true) none).1) 1)
      "k" (JsonValue.bool false) (some "c")).1)).context, r.key = "k" →
        r.updated_at = dbConv1.now + 1)) :=
  ⟨fun h => JsonValue.noConfusion h, fun h => JsonValue.noConfusion h,
    by simp [jsonWFb], by decide,
    set_context_upsert dbConv1 "k" (JsonValue.bool true)
      (JsonValue.bool false) none (some "c") 1
      (fun h => JsonValue.noConfusion h) (fun h => JsonValue.noConfusion h)
      (by simp [jsonWFb]) (by decide)⟩

/-- **C8**: the UNIQUE constraint on `images.hash` (attached to a valid
message): a second INSERT with an already-present non-null hash fails
with a constraint violation and leaves the store unchanged, while two
inserts with NULL hash both succeed (NULLs never conflict). -/
theorem image_hash_unique (s : DBState) (message_id : Nat)
    (fp fn : String) (fs : Int) (mt : String) (w ht : Option Int)
    (h : String) (md : Option JsonValue)
    (hmsg : s.messages.any (fun m => m.id = message_id) = true) :
    (s.images.any (fun i => i.hash = some h) = true →
      addImage s message_id fp fn fs mt w ht (some h) md =
        (s, Except.error DbError.uniqueViolation)) ∧
    (∀ fp2 fn2 : String, ∀ fs2 : Int, ∀ mt2 : String, ∀ w2 ht2 : Option Int,
      ∀ md2 : Option JsonValue, ∃ s1 r1 s2 r2,
      addImage s message_id fp fn fs mt w ht none md = (s1, Except.ok r1) ∧
      addImage s1 message_id fp2 fn2 fs2 mt2 w2 ht2 none md2 =
        (s2, Except.ok r2)) := by
  constructor
  · intro hdup
    simp [addImage, hmsg, hdup]
  · intro fp2 fn2 fs2 mt2 w2 ht2 md2
    have h1 := addImage_none_ok s message_id fp fn fs mt w ht md hmsg
    have hmsg1 : (pushImg s
        (mkImg s message_id fp fn fs mt w ht none md)).messages.any
        (fun m => m.id = message_id) = true := hmsg
    have h2 := addImage_none_ok
      (pushImg s (mkImg s message_id fp fn fs mt w ht none md))
      message_id fp2 fn2 fs2 mt2 w2 ht2 md2 hmsg1
    exact ⟨_, _, _, _, h1, h2⟩

theorem image_hash_unique_witness :
    (dbImg1.messages.any (fun m => m.id = 1) = true) ∧
    (dbImg1.images.any (fun i => i.hash = some "h") = true) ∧
    (addImage dbImg1 1 "p2" "n2" 3 "image/png" none none (some "h") none =
      (dbImg1, Except.error DbError.uniqueViolation)) ∧
    (∃ s1 r1 s2 r2,
      addImage dbImg1 1 "p2" "n2" 3 "image/png" none none none none =
        (s1, Except.ok r1) ∧
      addImage s1 1 "p4" "n4" 4 "t" none none none none =
        (s2, Except.ok r2)) :=
  ⟨by decide, by decide,
    (image_hash_unique dbImg1 1 "p2" "n2" 3 "image/png" none none "h" none
      (by decide)).1 (by decide),
    (image_hash_unique dbImg1 1 "p2" "n2" 3 "image/png" none none "h" none
      (by decide)).2 "p4" "n4" 4 "t" none none none⟩

end Fluxa
